import Mathlib

/-!
# mail-mgmt: e-mail validation, credential store and mailbox paths

A shallow embedding of `main.go` of the mail-mgmt administration tool.

* Go strings are modelled as lists of characters (`Str`); the credential file is UTF-8 text,
  so splitting at a newline and comparing prefixes agree on bytes and on characters.
* The credential file is the only state of the store: `none` stands for a file that cannot be
  opened, `some c` for a file with content `c`.
* `userExists` and `getUserHash` read the file with a `bufio.Scanner` made by
  `bufio.NewScanner`: lines end at a newline, one trailing carriage return is dropped, and a
  line that does not fit in the buffer of `bufio.MaxScanTokenSize` bytes ends the scan.
  `removeUserFromPasswd` and `updateUserPassword` use `strings.Split` and `strings.Join`.
* The password hasher, the service manager and the directory operations of the operating
  system are external collaborators; they are the fields of `Sys`. The credential file is
  taken to lie outside the mailbox directories.
-/

namespace MailMgmt

/-- A Go string. -/
abbrev Str := List Char

/-! ## The parts of Go's `strings` package that the tool calls -/

/-- Go `strings.HasPrefix(s, pre)`. -/
def stringsHasPrefix (s pre : Str) : Bool := pre.isPrefixOf s

/-- Go `strings.Split(s, sep)` for a one-character separator: all pieces, at least one. -/
def stringsSplit (sep : Char) : Str → List Str
  | [] => [[]]
  | c :: cs =>
    if c = sep then [] :: stringsSplit sep cs
    else
      match stringsSplit sep cs with
      | [] => [[c]]
      | l :: ls => (c :: l) :: ls

/-- Go `strings.Join(elems, sep)`. -/
def stringsJoin (sep : Str) : List Str → Str
  | [] => []
  | [l] => l
  | l :: l2 :: ls => l ++ sep ++ stringsJoin sep (l2 :: ls)

/-- Go `strings.SplitN(s, sep, 2)` for a one-character separator: the text before the first
separator and the text after it, or the whole string when there is no separator. -/
def stringsSplitN2 (sep : Char) : Str → List Str
  | [] => [[]]
  | c :: cs =>
    if c = sep then [[], cs]
    else
      match stringsSplitN2 sep cs with
      | [a, b] => [c :: a, b]
      | _ => [c :: cs]

/-- Go `unicode.IsSpace`. -/
def isSpace (c : Char) : Bool :=
  c == '\t' || c == '\n' || c == Char.ofNat 0x0B || c == Char.ofNat 0x0C || c == '\r' ||
  c == ' ' || c == Char.ofNat 0x85 || c == Char.ofNat 0xA0 || c == Char.ofNat 0x1680 ||
  (0x2000 ≤ c.toNat && c.toNat ≤ 0x200A) || c == Char.ofNat 0x2028 ||
  c == Char.ofNat 0x2029 || c == Char.ofNat 0x202F || c == Char.ofNat 0x205F ||
  c == Char.ofNat 0x3000

/-- Go `strings.TrimSpace`. -/
def stringsTrimSpace (s : Str) : Str :=
  ((s.dropWhile isSpace).reverse.dropWhile isSpace).reverse

/-- Go `strings.ToLower`, on the ASCII letters. (Go also lowers the other Unicode letters; no
such letter is mapped to one of `y`, `e`, `s`, the only letters the tool compares with.) -/
def stringsToLower (s : Str) : Str := s.map Char.toLower

/-! ## Regular expressions, as far as `isValidEmail` needs them -/

/-- Regular expressions over characters; a character class is a predicate. -/
inductive RE where
  | cls (p : Char → Bool)
  | eps
  | never
  | seq (a b : RE)
  | alt (a b : RE)
  | star (a : RE)

namespace RE

/-- Whether the expression matches the empty string. -/
def nullable : RE → Bool
  | cls _ => false
  | eps => true
  | never => false
  | seq a b => nullable a && nullable b
  | alt a b => nullable a || nullable b
  | star _ => true

/-- Brzozowski derivative: what remains to be matched after reading `c`. -/
def deriv (c : Char) : RE → RE
  | cls p => if p c then eps else never
  | eps => never
  | never => never
  | seq a b => if nullable a then alt (seq (deriv c a) b) (deriv c b) else seq (deriv c a) b
  | alt a b => alt (deriv c a) (deriv c b)
  | star a => seq (deriv c a) (star a)

/-- Anchored match (`^...$`): the whole string is consumed. -/
def matchString : RE → Str → Bool
  | r, [] => nullable r
  | r, c :: cs => matchString (deriv c r) cs

/-- The quantifier `+`. -/
def plus (a : RE) : RE := seq a (star a)

/-- Declarative meaning of a regular expression. -/
inductive Matches : RE → Str → Prop
  | cls {p : Char → Bool} {c : Char} : p c = true → Matches (.cls p) [c]
  | eps : Matches .eps []
  | seq {a b : RE} {u v : Str} : Matches a u → Matches b v → Matches (.seq a b) (u ++ v)
  | altL {a b : RE} {u : Str} : Matches a u → Matches (.alt a b) u
  | altR {a b : RE} {u : Str} : Matches b u → Matches (.alt a b) u
  | starNil {a : RE} : Matches (.star a) []
  | starCons {a : RE} {u v : Str} :
      Matches a u → Matches (.star a) v → Matches (.star a) (u ++ v)

end RE

/-- The class `[a-zA-Z0-9._%+\-]`. -/
def isLocalChar (c : Char) : Bool :=
  c.isAlphanum || c == '.' || c == '_' || c == '%' || c == '+' || c == '-'

/-- The class `[a-zA-Z0-9.\-]`. -/
def isDomainChar (c : Char) : Bool :=
  c.isAlphanum || c == '.' || c == '-'

/-- The class `[a-zA-Z0-9\-]` of the characters of a domain label. -/
def isLabelChar (c : Char) : Bool :=
  c.isAlphanum || c == '-'

/-- The pattern `^[a-zA-Z0-9._%+\-]+@[a-zA-Z0-9.\-]+\.[a-zA-Z]{2,}$` of `isValidEmail`. -/
def emailRe : RE :=
  .seq (.plus (.cls isLocalChar))
    (.seq (.cls (· == '@'))
      (.seq (.plus (.cls isDomainChar))
        (.seq (.cls (· == '.'))
          (.seq (.cls Char.isAlpha) (.seq (.cls Char.isAlpha) (.star (.cls Char.isAlpha)))))))

/-- Go `isValidEmail`: `re.MatchString(email)` for the pattern `emailRe`. -/
def isValidEmail (email : Str) : Bool := emailRe.matchString email

/-- The shape the pattern describes: `local@domain.tld` where the text between `@` and the
last dot is any non-empty string over `[a-zA-Z0-9.\-]`. -/
def EmailShape (s : Str) : Prop :=
  ∃ loc domain tld : Str,
    s = loc ++ '@' :: (domain ++ '.' :: tld) ∧
    loc ≠ [] ∧ (∀ c ∈ loc, isLocalChar c = true) ∧
    domain ≠ [] ∧ (∀ c ∈ domain, isDomainChar c = true) ∧
    2 ≤ tld.length ∧ (∀ c ∈ tld, c.isAlpha = true)

/-- The shape in the words of the specification: the domain is one or more dot-separated
labels, each a non-empty string of ASCII letters, digits and hyphens. -/
def SpecEmailShape (s : Str) : Prop :=
  ∃ (loc : Str) (labels : List Str) (tld : Str),
    s = loc ++ '@' :: (stringsJoin ['.'] labels ++ '.' :: tld) ∧
    loc ≠ [] ∧ (∀ c ∈ loc, isLocalChar c = true) ∧
    labels ≠ [] ∧ (∀ l ∈ labels, l ≠ [] ∧ ∀ c ∈ l, isLabelChar c = true) ∧
    2 ≤ tld.length ∧ (∀ c ∈ tld, c.isAlpha = true)

/-! ## Reading the credential file line by line: `bufio.Scanner` -/

/-- Number of bytes of the UTF-8 encoding of a string (Go `len`). -/
def utf8Len : Str → Nat
  | [] => 0
  | c :: cs => c.utf8Size + utf8Len cs

/-- Go `bufio.MaxScanTokenSize`: the size of the buffer of a `bufio.Scanner` made by
`bufio.NewScanner`, `64 * 1024` bytes. -/
def MaxScanTokenSize : Nat := 64 * 1024

/-- Go `dropCR` of `bufio.ScanLines`: one trailing carriage return is dropped. -/
def dropCR (data : Str) : Str :=
  if data.getLast? = some '\r' then data.dropLast else data

/-- The lines for which `scanner.Scan()` returns true, in order, for a fresh
`bufio.NewScanner` with the split function `bufio.ScanLines`; `cur` is the part of the current
line read so far. A line ends at `'\n'`; a last line without `'\n'` is returned when it is not
empty. A line that does not fit in the buffer (`MaxScanTokenSize` bytes, the newline counted)
makes `Scan` stop with `bufio.ErrTooLong`: neither that line nor any later one is returned. -/
def scanFrom : Str → Str → List Str
  | cur, [] =>
    if cur = [] then []
    else if MaxScanTokenSize ≤ utf8Len cur then []
    else [dropCR cur]
  | cur, c :: rest =>
    if c = '\n' then
      if MaxScanTokenSize ≤ utf8Len cur then []
      else dropCR cur :: scanFrom [] rest
    else scanFrom (cur ++ [c]) rest

/-- The lines a `bufio.Scanner` yields for the whole content of a file. -/
def scanLines (data : Str) : List Str := scanFrom [] data

/-- The scanned lines computed from the pieces of `strings.Split(content, "\n")`: an empty last
piece is no line, and scanning stops at the first piece that does not fit in the buffer. It is
proved equal to `scanLines` below (`scanLines_eq_scanPieces`). -/
def scanPieces : List Str → List Str
  | [] => []
  | [l] =>
    if l = [] then []
    else if MaxScanTokenSize ≤ utf8Len l then []
    else [dropCR l]
  | l :: l2 :: ls =>
    if MaxScanTokenSize ≤ utf8Len l then []
    else dropCR l :: scanPieces (l2 :: ls)

/-! ## The credential store -/

/-- Errors of the store operations. -/
inductive StoreError where
  | openFailed
  | userNotFound
deriving DecidableEq, Repr

deriving instance DecidableEq for Except

/-- Go `userExists`, on the content of `PasswdFile`. -/
def userExists (user : Str) (content : Str) : Bool :=
  (scanLines content).any fun line => stringsHasPrefix line (user ++ [':'])

/-- The loop of Go `getUserHash` over the scanned lines. -/
def getUserHashLoop (user : Str) : List Str → Except StoreError Str
  | [] => .error .userNotFound
  | line :: rest =>
    if stringsHasPrefix line (user ++ [':']) then
      match stringsSplitN2 ':' line with
      | [_, hash] => .ok hash
      | _ => getUserHashLoop user rest
    else getUserHashLoop user rest

/-- Go `getUserHash`, on the content of `PasswdFile`. -/
def getUserHash (user : Str) (content : Str) : Except StoreError Str :=
  getUserHashLoop user (scanLines content)

/-- Go `addUserToPasswd`: the content of `PasswdFile` after `user:hash\n` is appended. -/
def addUserToPasswd (user hash : Str) (content : Str) : Str :=
  content ++ (user ++ [':'] ++ hash ++ ['\n'])

/-- Go `removeUserFromPasswd`: the content written back to `PasswdFile`. -/
def removeUserFromPasswd (user : Str) (content : Str) : Str :=
  stringsJoin ['\n']
    ((stringsSplit '\n' content).filter fun line => !stringsHasPrefix line (user ++ [':']))

/-- Go `updateUserPassword`: the content written back to `PasswdFile`. -/
def updateUserPassword (user newHash : Str) (content : Str) : Str :=
  stringsJoin ['\n']
    ((stringsSplit '\n' content).map fun line =>
      if stringsHasPrefix line (user ++ [':']) then user ++ [':'] ++ newHash else line)

/-- Go `userExists` on the file: a file that cannot be opened has no users. -/
def userExistsOnFile (user : Str) : Option Str → Bool
  | none => false
  | some content => userExists user content

/-- Go `getUserHash` on the file. -/
def getUserHashOnFile (user : Str) : Option Str → Except StoreError Str
  | none => .error .openFailed
  | some content => getUserHash user content

/-- Go `addUserToPasswd` on the file: it is opened without `O_CREATE`. -/
def addUserToPasswdOnFile (user hash : Str) : Option Str → Except StoreError (Option Str)
  | none => .error .openFailed
  | some content => .ok (some (addUserToPasswd user hash content))

/-- Go `removeUserFromPasswd` on the file. -/
def removeUserFromPasswdOnFile (user : Str) : Option Str → Except StoreError (Option Str)
  | none => .error .openFailed
  | some content => .ok (some (removeUserFromPasswd user content))

/-- Go `updateUserPassword` on the file. -/
def updateUserPasswordOnFile (user newHash : Str) : Option Str → Except StoreError (Option Str)
  | none => .error .openFailed
  | some content => .ok (some (updateUserPassword user newHash content))

/-- The lines of a credential file, as `strings.Split(content, "\n")` gives them. -/
def fileLines (content : Str) : List Str := stringsSplit '\n' content

/-- The documented format of the credential file: empty, or every record ends in a newline. -/
def NewlineTerminated (content : Str) : Prop :=
  content = [] ∨ content.getLast? = some '\n'

instance (content : Str) : Decidable (NewlineTerminated content) := by
  unfold NewlineTerminated
  exact inferInstance

/-- Every line of the content fits in the buffer of a `bufio.Scanner`. -/
def LinesFit (content : Str) : Prop :=
  ∀ l ∈ fileLines content, utf8Len l < MaxScanTokenSize

instance (content : Str) : Decidable (LinesFit content) := by
  unfold LinesFit
  exact inferInstance

/-- The lines of the content that start with `user:`. -/
def recordsOf (user : Str) (content : Str) : List Str :=
  (fileLines content).filter fun line => stringsHasPrefix line (user ++ [':'])

/-- A line of `MaxScanTokenSize + 1` bytes: `#` followed by `MaxScanTokenSize` times `x`. -/
def longLine : Str := '#' :: List.replicate MaxScanTokenSize 'x'

/-- At most one line per valid identifier. -/
def UniqueIds (content : Str) : Prop :=
  ∀ e : Str, isValidEmail e = true → (recordsOf e content).length ≤ 1

/-! ## Mailbox directories -/

/-- One step of Go `filepath.Clean` over the elements of a path; `out` holds the elements kept
so far, the last one first. Empty elements and `.` are dropped; `..` removes the element before
it, is dropped at the root of a rooted path and is kept at the start of a relative path. -/
def cleanStep (rooted : Bool) (out : List Str) (elem : Str) : List Str :=
  if elem = [] ∨ elem = ['.'] then out
  else if elem = ['.', '.'] then
    match out with
    | [] => if rooted then [] else [elem]
    | top :: below => if top = ['.', '.'] then elem :: out else below
  else elem :: out

/-- Go `filepath.Clean` on Unix. -/
def filepathClean (path : Str) : Str :=
  if path = [] then ['.']
  else
    let rooted := path.head? == some '/'
    let out := ((stringsSplit '/' path).foldl (cleanStep rooted) []).reverse
    if rooted then '/' :: stringsJoin ['/'] out
    else if out = [] then ['.']
    else stringsJoin ['/'] out

/-- Go `filepath.Join` on Unix: the elements from the first non-empty one on are joined with
`/` and the result is cleaned; without a non-empty element the result is empty. -/
def filepathJoin (elems : List Str) : Str :=
  match elems.dropWhile (· = []) with
  | [] => []
  | es => filepathClean (stringsJoin ['/'] es)

/-- The directory of a user, `filepath.Join(VmailBaseDir, domain, local)`, as `createMaildir`
and `deleteMaildir` compute it; `none` is their error `invalid email format`. -/
def userDir (VmailBaseDir user : Str) : Option Str :=
  match stringsSplit '@' user with
  | [loc, domain] => some (filepathJoin [VmailBaseDir, domain, loc])
  | _ => none

/-- The services of the operating system and the external programs the tool calls, over a
state `σ` of the system outside the credential file. A call returns whether it succeeded and
the state it leaves. -/
structure Sys (σ : Type) where
  /-- Standard output of `doveadm pw -s HashScheme -p password`, `none` when it fails. -/
  doveadmPw : Str → Option Str
  /-- Whether `doveadm pw -t hash -p password` exits with status 0. -/
  doveadmTest : Str → Str → Bool
  /-- Go `os.MkdirAll(path, MaildirMode)`. -/
  mkdirAll : Str → σ → Bool × σ
  /-- The command `chown -R VmailUser:VmailGroup dir`. -/
  chownR : Str → σ → Bool × σ
  /-- The command `chmod -R 700 dir`. -/
  chmodR : Str → σ → Bool × σ
  /-- Whether `os.Stat(path)` fails with an error for which `os.IsNotExist` holds. -/
  notExist : Str → σ → Bool
  /-- Go `os.RemoveAll(path)`. -/
  removeAll : Str → σ → Bool × σ
  /-- The command `systemctl reload DovecotService`. -/
  reload : σ → Bool × σ

/-- The loop of `createMaildir` over `cur`, `new` and `tmp`: it stops at the first failure. -/
def mkdirLoop {σ : Type} (sys : Sys σ) : List Str → σ → Bool × σ
  | [], s => (true, s)
  | path :: rest, s =>
    match sys.mkdirAll path s with
    | (true, s1) => mkdirLoop sys rest s1
    | (false, s1) => (false, s1)

/-- Go `createMaildir`. -/
def createMaildir {σ : Type} (sys : Sys σ) (VmailBaseDir user : Str) (s : σ) : Bool × σ :=
  match stringsSplit '@' user with
  | [loc, domain] =>
    let maildir := filepathJoin [VmailBaseDir, domain, loc, "Maildir".toList]
    match mkdirLoop sys
        (["cur".toList, "new".toList, "tmp".toList].map fun dir => filepathJoin [maildir, dir])
        s with
    | (false, s1) => (false, s1)
    | (true, s1) =>
      let dir := filepathJoin [VmailBaseDir, domain, loc]
      match sys.chownR dir s1 with
      | (false, s2) => (false, s2)
      | (true, s2) => sys.chmodR dir s2
  | _ => (false, s)

/-- Go `deleteMaildir`. -/
def deleteMaildir {σ : Type} (sys : Sys σ) (VmailBaseDir user : Str) (s : σ) : Bool × σ :=
  match stringsSplit '@' user with
  | [loc, domain] =>
    let maildir := filepathJoin [VmailBaseDir, domain, loc]
    if sys.notExist maildir s then (true, s)
    else sys.removeAll maildir s
  | _ => (false, s)

/-! ## The command dispatcher -/

/-- What a run of the tool can change: the credential file (`none` when it cannot be opened)
and the rest of the system, mailbox directories included. -/
structure World (σ : Type) where
  passwd : Option Str
  os : σ

/-- The reasons for which a handler calls `os.Exit(1)`. -/
inductive Failure where
  | invalidEmail
  | userAlreadyExists
  | userDoesNotExist
  | readPasswordFailed
  | passwordsDoNotMatch
  | wrongCurrentPassword
  | hashFailed
  | getHashFailed
  | storeFailed
  | maildirFailed
deriving DecidableEq, Repr

/-- How a handler ends. -/
inductive Outcome where
  | success
  | cancelled
  | failed (reason : Failure)
deriving DecidableEq, Repr

/-- The exit code of the process. -/
def Outcome.exitCode : Outcome → Nat
  | .success => 0
  | .cancelled => 0
  | .failed _ => 1

/-- The validation errors: a malformed identifier, a duplicate or missing account, two
password entries that differ, a wrong old password. -/
def Failure.isValidationError : Failure → Bool
  | .invalidEmail => true
  | .userAlreadyExists => true
  | .userDoesNotExist => true
  | .passwordsDoNotMatch => true
  | .wrongCurrentPassword => true
  | _ => false

/-- Whether a run stopped on a validation error. -/
def Outcome.isValidationError : Outcome → Bool
  | .failed reason => reason.isValidationError
  | _ => false

/-- Go `readPassword`: the next entry typed at the terminal, `none` when reading fails; `tty`
lists the results of the successive calls. -/
def readPassword : List (Option Str) → Option Str × List (Option Str)
  | [] => (none, [])
  | entry :: rest => (entry, rest)

/-- The double entry of a new password in `handleCreate` and `handleChangePassword`: a password
given as a flag is used as it is, otherwise it is read twice and both entries must agree. -/
def enterNewPassword (password : Str) (tty : List (Option Str)) : Except Failure Str :=
  if password = [] then
    match readPassword tty with
    | (none, _) => .error .readPasswordFailed
    | (some pass, tty1) =>
      match readPassword tty1 with
      | (none, _) => .error .readPasswordFailed
      | (some confirmPass, _) =>
        if pass ≠ confirmPass then .error .passwordsDoNotMatch else .ok pass
  else .ok password

/-- Go `generatePasswordHash`. -/
def generatePasswordHash {σ : Type} (sys : Sys σ) (password : Str) : Option Str :=
  (sys.doveadmPw password).map stringsTrimSpace

/-- Go `verifyPassword`. -/
def verifyPassword {σ : Type} (sys : Sys σ) (hash password : Str) : Bool :=
  sys.doveadmTest hash password

/-- Go `handleCreate`. -/
def handleCreate {σ : Type} (sys : Sys σ) (VmailBaseDir : Str) (tty : List (Option Str))
    (user password : Str) (w : World σ) : Outcome × World σ :=
  if !isValidEmail user then (.failed .invalidEmail, w)
  else if userExistsOnFile user w.passwd then (.failed .userAlreadyExists, w)
  else
    match enterNewPassword password tty with
    | .error reason => (.failed reason, w)
    | .ok password =>
      match generatePasswordHash sys password with
      | none => (.failed .hashFailed, w)
      | some hash =>
        match addUserToPasswdOnFile user hash w.passwd with
        | .error _ => (.failed .storeFailed, w)
        | .ok file =>
          match createMaildir sys VmailBaseDir user w.os with
          | (false, s1) => (.failed .maildirFailed, ⟨file, s1⟩)
          | (true, s1) => (.success, ⟨file, (sys.reload s1).2⟩)

/-- Go `handleDelete`; `answer` is the line read from standard input at the confirmation
prompt. -/
def handleDelete {σ : Type} (sys : Sys σ) (VmailBaseDir : Str) (answer : Str)
    (user : Str) (skipConfirm : Bool) (w : World σ) : Outcome × World σ :=
  if !isValidEmail user then (.failed .invalidEmail, w)
  else if !userExistsOnFile user w.passwd then (.failed .userDoesNotExist, w)
  else
    let response := stringsTrimSpace (stringsToLower answer)
    if !skipConfirm && (response ≠ "yes".toList && response ≠ "y".toList) then (.cancelled, w)
    else
      match removeUserFromPasswdOnFile user w.passwd with
      | .error _ => (.failed .storeFailed, w)
      | .ok file =>
        let s1 := (deleteMaildir sys VmailBaseDir user w.os).2
        (.success, ⟨file, (sys.reload s1).2⟩)

/-- Go `handleChangePassword`. -/
def handleChangePassword {σ : Type} (sys : Sys σ) (tty : List (Option Str))
    (user oldPass newPass : Str) (w : World σ) : Outcome × World σ :=
  if !isValidEmail user then (.failed .invalidEmail, w)
  else if !userExistsOnFile user w.passwd then (.failed .userDoesNotExist, w)
  else
    match (if oldPass = [] then readPassword tty else (some oldPass, tty)) with
    | (none, _) => (.failed .readPasswordFailed, w)
    | (some oldPass, tty1) =>
      match getUserHashOnFile user w.passwd with
      | .error _ => (.failed .getHashFailed, w)
      | .ok storedHash =>
        if !verifyPassword sys storedHash oldPass then (.failed .wrongCurrentPassword, w)
        else
          match enterNewPassword newPass tty1 with
          | .error reason => (.failed reason, w)
          | .ok newPass =>
            match generatePasswordHash sys newPass with
            | none => (.failed .hashFailed, w)
            | some newHash =>
              match updateUserPasswordOnFile user newHash w.passwd with
              | .error _ => (.failed .storeFailed, w)
              | .ok file => (.success, ⟨file, (sys.reload w.os).2⟩)

/-- A small system for the examples: the state is the list of the existing directories, the
hasher writes `PLAIN:` before the password, and no call fails. -/
def demoSys : Sys (List Str) where
  doveadmPw := fun password => some ("PLAIN:".toList ++ password ++ ['\n'])
  doveadmTest := fun hash password => hash == "PLAIN:".toList ++ password
  mkdirAll := fun path dirs => (true, path :: dirs)
  chownR := fun _ dirs => (true, dirs)
  chmodR := fun _ dirs => (true, dirs)
  notExist := fun path dirs => !dirs.any fun dir => path.isPrefixOf dir
  removeAll := fun path dirs => (true, dirs.filter fun dir => !path.isPrefixOf dir)
  reload := fun dirs => (true, dirs)

/-! ## Theorems -/

namespace RE

theorem matches_seq_iff (a b : RE) (s : Str) :
    Matches (.seq a b) s ↔ ∃ u v, s = u ++ v ∧ Matches a u ∧ Matches b v := by
  constructor
  · intro h
    cases h with
    | seq ha hb => exact ⟨_, _, rfl, ha, hb⟩
  · rintro ⟨u, v, rfl, ha, hb⟩
    exact .seq ha hb

theorem matches_cls_iff (p : Char → Bool) (s : Str) :
    Matches (.cls p) s ↔ ∃ c, s = [c] ∧ p c = true := by
  constructor
  · intro h
    cases h with
    | cls hp => exact ⟨_, rfl, hp⟩
  · rintro ⟨c, rfl, hp⟩
    exact .cls hp

theorem nullable_iff (r : RE) : nullable r = true ↔ Matches r [] := by
  induction r with
  | cls p =>
    simp only [nullable, Bool.false_eq_true, false_iff]
    intro h
    cases h
  | eps => exact ⟨fun _ => .eps, fun _ => rfl⟩
  | never =>
    simp only [nullable, Bool.false_eq_true, false_iff]
    intro h
    cases h
  | seq a b iha ihb =>
    simp only [nullable, Bool.and_eq_true, iha, ihb]
    constructor
    · rintro ⟨ha, hb⟩
      exact .seq (u := []) (v := []) ha hb
    · intro h
      rcases (matches_seq_iff a b []).1 h with ⟨u, v, huv, ha, hb⟩
      have hu : u = [] := (List.append_eq_nil.1 huv.symm).1
      have hv : v = [] := (List.append_eq_nil.1 huv.symm).2
      subst hu hv
      exact ⟨ha, hb⟩
  | alt a b iha ihb =>
    simp only [nullable, Bool.or_eq_true, iha, ihb]
    constructor
    · rintro (h | h)
      · exact .altL h
      · exact .altR h
    · intro h
      cases h with
      | altL h => exact Or.inl h
      | altR h => exact Or.inr h
  | star a _ => exact ⟨fun _ => .starNil, fun _ => rfl⟩

theorem matches_star_cons (a : RE) (c : Char) (s : Str) (h : Matches (.star a) (c :: s)) :
    ∃ u v, s = u ++ v ∧ Matches a (c :: u) ∧ Matches (.star a) v := by
  generalize hr : RE.star a = r at h
  generalize hw : c :: s = w at h
  induction h with
  | cls _ => cases hr
  | eps => cases hr
  | seq _ _ => cases hr
  | altL _ => cases hr
  | altR _ => cases hr
  | starNil => cases hw
  | @starCons a2 u v hu hv _ ihv =>
    cases hr
    cases u with
    | nil => exact ihv rfl hw
    | cons d u2 =>
      simp only [List.cons_append, List.cons.injEq] at hw
      obtain ⟨rfl, rfl⟩ := hw
      exact ⟨u2, v, rfl, hu, hv⟩

theorem deriv_iff (c : Char) (r : RE) : ∀ s : Str, Matches (deriv c r) s ↔ Matches r (c :: s) := by
  induction r with
  | cls p =>
    intro s
    by_cases hp : p c = true
    · simp only [deriv, hp, if_true]
      constructor
      · intro h
        cases h
        exact .cls hp
      · intro h
        cases h
        exact .eps
    · simp only [deriv, hp, if_false, Bool.false_eq_true]
      constructor
      · intro h
        cases h
      · intro h
        cases h with
        | cls h2 => exact absurd h2 hp
  | eps =>
    intro s
    constructor
    · intro h
      cases h
    · intro h
      cases h
  | never =>
    intro s
    constructor
    · intro h
      cases h
    · intro h
      cases h
  | seq a b iha ihb =>
    intro s
    have key : Matches (.seq a b) (c :: s) ↔
        (∃ u v, s = u ++ v ∧ Matches a (c :: u) ∧ Matches b v) ∨
          (nullable a = true ∧ Matches b (c :: s)) := by
      rw [matches_seq_iff]
      constructor
      · rintro ⟨u, v, huv, ha, hb⟩
        cases u with
        | nil =>
          simp only [List.nil_append] at huv
          subst huv
          exact Or.inr ⟨(nullable_iff a).2 ha, hb⟩
        | cons d u2 =>
          simp only [List.cons_append, List.cons.injEq] at huv
          obtain ⟨rfl, rfl⟩ := huv
          exact Or.inl ⟨u2, v, rfl, ha, hb⟩
      · rintro (⟨u, v, rfl, ha, hb⟩ | ⟨hn, hb⟩)
        · exact ⟨c :: u, v, rfl, ha, hb⟩
        · exact ⟨[], c :: s, rfl, (nullable_iff a).1 hn, hb⟩
    rw [key]
    by_cases hn : nullable a = true
    · simp only [deriv, hn, if_true]
      constructor
      · intro h
        cases h with
        | altL h =>
          rcases (matches_seq_iff _ _ _).1 h with ⟨u, v, rfl, ha, hb⟩
          exact Or.inl ⟨u, v, rfl, (iha u).1 ha, hb⟩
        | altR h => exact Or.inr ⟨trivial, (ihb s).1 h⟩
      · rintro (⟨u, v, rfl, ha, hb⟩ | ⟨_, hb⟩)
        · exact .altL (.seq ((iha u).2 ha) hb)
        · exact .altR ((ihb s).2 hb)
    · simp only [deriv, hn, if_false, Bool.false_eq_true, false_and, or_false]
      rw [matches_seq_iff]
      constructor
      · rintro ⟨u, v, rfl, ha, hb⟩
        exact ⟨u, v, rfl, (iha u).1 ha, hb⟩
      · rintro ⟨u, v, rfl, ha, hb⟩
        exact ⟨u, v, rfl, (iha u).2 ha, hb⟩
  | alt a b iha ihb =>
    intro s
    simp only [deriv]
    constructor
    · intro h
      cases h with
      | altL h => exact .altL ((iha s).1 h)
      | altR h => exact .altR ((ihb s).1 h)
    · intro h
      cases h with
      | altL h => exact .altL ((iha s).2 h)
      | altR h => exact .altR ((ihb s).2 h)
  | star a iha =>
    intro s
    simp only [deriv]
    rw [matches_seq_iff]
    constructor
    · rintro ⟨u, v, rfl, ha, hv⟩
      exact .starCons (u := c :: u) ((iha u).1 ha) hv
    · intro h
      rcases matches_star_cons a c s h with ⟨u, v, rfl, ha, hv⟩
      exact ⟨u, v, rfl, (iha u).2 ha, hv⟩

theorem matchString_iff (s : Str) : ∀ r : RE, matchString r s = true ↔ Matches r s := by
  induction s with
  | nil => intro r; exact nullable_iff r
  | cons c cs ih =>
    intro r
    simp only [matchString]
    rw [ih (deriv c r), deriv_iff]

theorem matches_star_cls_iff (p : Char → Bool) (s : Str) :
    Matches (.star (.cls p)) s ↔ ∀ c ∈ s, p c = true := by
  induction s with
  | nil => exact ⟨fun _ c hc => absurd hc (List.not_mem_nil c), fun _ => .starNil⟩
  | cons d ds ih =>
    constructor
    · intro h
      rcases matches_star_cons _ d ds h with ⟨u, v, rfl, ha, hv⟩
      rcases (matches_cls_iff p _).1 ha with ⟨c, hc, hp⟩
      simp only [List.cons.injEq] at hc
      obtain ⟨rfl, rfl⟩ := hc
      intro c hc
      rcases List.mem_cons.1 hc with rfl | hc
      · exact hp
      · exact ih.1 hv c hc
    · intro h
      exact .starCons (u := [d]) (.cls (h d (List.mem_cons_self _ _)))
        (ih.2 fun c hc => h c (List.mem_cons_of_mem _ hc))

theorem matches_plus_cls_iff (p : Char → Bool) (s : Str) :
    Matches (plus (.cls p)) s ↔ s ≠ [] ∧ ∀ c ∈ s, p c = true := by
  unfold plus
  rw [matches_seq_iff]
  constructor
  · rintro ⟨u, v, rfl, hu, hv⟩
    rcases (matches_cls_iff p u).1 hu with ⟨c, rfl, hp⟩
    refine ⟨by simp, ?_⟩
    intro d hd
    rcases List.mem_cons.1 hd with rfl | hd
    · exact hp
    · exact (matches_star_cls_iff p v).1 hv d hd
  · rintro ⟨hne, hall⟩
    cases s with
    | nil => exact absurd rfl hne
    | cons c cs =>
      exact ⟨[c], cs, rfl, .cls (hall c (List.mem_cons_self _ _)),
        (matches_star_cls_iff p cs).2 fun d hd => hall d (List.mem_cons_of_mem _ hd)⟩

theorem matches_two_or_more_iff (p : Char → Bool) (s : Str) :
    Matches (.seq (.cls p) (.seq (.cls p) (.star (.cls p)))) s ↔
      2 ≤ s.length ∧ ∀ c ∈ s, p c = true := by
  constructor
  · intro h
    rcases (matches_seq_iff _ _ _).1 h with ⟨u, v, rfl, hu, hv⟩
    rcases (matches_seq_iff _ _ _).1 hv with ⟨u2, v2, rfl, hu2, hv2⟩
    rcases (matches_cls_iff p u).1 hu with ⟨c, rfl, hp⟩
    rcases (matches_cls_iff p u2).1 hu2 with ⟨c2, rfl, hp2⟩
    refine ⟨by simp, ?_⟩
    intro d hd
    simp only [List.singleton_append, List.mem_cons] at hd
    rcases hd with rfl | rfl | hd
    · exact hp
    · exact hp2
    · exact (matches_star_cls_iff p v2).1 hv2 d hd
  · rintro ⟨hlen, hall⟩
    match s, hlen, hall with
    | c :: c2 :: cs, _, hall =>
      exact .seq (u := [c]) (.cls (hall c (by simp)))
        (.seq (u := [c2]) (.cls (hall c2 (by simp)))
          ((matches_star_cls_iff p cs).2 fun d hd => hall d (by simp [hd])))

end RE

theorem isValidEmail_iff_shape (s : Str) : isValidEmail s = true ↔ EmailShape s := by
  unfold isValidEmail EmailShape emailRe
  rw [RE.matchString_iff]
  constructor
  · intro h
    rcases (RE.matches_seq_iff _ _ _).1 h with ⟨loc, r1, rfl, hloc, h1⟩
    rcases (RE.matches_seq_iff _ _ _).1 h1 with ⟨at1, r2, rfl, hat, h2⟩
    rcases (RE.matches_seq_iff _ _ _).1 h2 with ⟨domain, r3, rfl, hdom, h3⟩
    rcases (RE.matches_seq_iff _ _ _).1 h3 with ⟨dot, tld, rfl, hdot, htld⟩
    rcases (RE.matches_cls_iff _ _).1 hat with ⟨a, rfl, ha⟩
    rcases (RE.matches_cls_iff _ _).1 hdot with ⟨d, rfl, hd⟩
    have ha2 : a = '@' := by simpa using ha
    have hd2 : d = '.' := by simpa using hd
    subst ha2 hd2
    have hl := (RE.matches_plus_cls_iff _ _).1 hloc
    have hdm := (RE.matches_plus_cls_iff _ _).1 hdom
    have ht := (RE.matches_two_or_more_iff _ _).1 htld
    exact ⟨loc, domain, tld, by simp, hl.1, hl.2, hdm.1, hdm.2, ht.1, ht.2⟩
  · rintro ⟨loc, domain, tld, rfl, hl1, hl2, hd1, hd2, ht1, ht2⟩
    exact .seq ((RE.matches_plus_cls_iff _ _).2 ⟨hl1, hl2⟩)
      (.seq (u := ['@']) (.cls (by simp))
        (.seq ((RE.matches_plus_cls_iff _ _).2 ⟨hd1, hd2⟩)
          (.seq (u := ['.']) (.cls (by simp))
            ((RE.matches_two_or_more_iff _ _).2 ⟨ht1, ht2⟩))))

/-! ### Splitting and joining -/

theorem stringsSplit_ne_nil (sep : Char) (s : Str) : stringsSplit sep s ≠ [] := by
  cases s with
  | nil => simp [stringsSplit]
  | cons c cs =>
    unfold stringsSplit
    split
    · simp
    · split <;> simp

theorem stringsSplit_cons_sep (sep : Char) (cs : Str) :
    stringsSplit sep (sep :: cs) = [] :: stringsSplit sep cs := by
  simp [stringsSplit]

theorem stringsSplit_cons_ne (sep c : Char) (cs : Str) (h : c ≠ sep) :
    ∃ l ls, stringsSplit sep cs = l :: ls ∧ stringsSplit sep (c :: cs) = (c :: l) :: ls := by
  cases hs : stringsSplit sep cs with
  | nil => exact absurd hs (stringsSplit_ne_nil sep cs)
  | cons l ls =>
    refine ⟨l, ls, rfl, ?_⟩
    simp [stringsSplit, h, hs]

theorem stringsSplit_no_sep (sep : Char) (s : Str) (h : sep ∉ s) : stringsSplit sep s = [s] := by
  induction s with
  | nil => rfl
  | cons c cs ih =>
    have hc : c ≠ sep := fun e => h (by simp [e])
    have hcs : sep ∉ cs := fun e => h (List.mem_cons_of_mem _ e)
    obtain ⟨l, ls, h1, h2⟩ := stringsSplit_cons_ne sep c cs hc
    rw [ih hcs] at h1
    simp only [List.cons.injEq] at h1
    rw [h2, ← h1.1, ← h1.2]

theorem not_mem_of_mem_stringsSplit (sep : Char) (s : Str) :
    ∀ l ∈ stringsSplit sep s, sep ∉ l := by
  induction s with
  | nil =>
    intro l hl
    simp only [stringsSplit, List.mem_singleton] at hl
    subst hl
    simp
  | cons c cs ih =>
    intro l hl
    by_cases hc : c = sep
    · subst hc
      rw [stringsSplit_cons_sep] at hl
      rcases List.mem_cons.1 hl with rfl | hl
      · simp
      · exact ih l hl
    · obtain ⟨l0, ls, h1, h2⟩ := stringsSplit_cons_ne sep c cs hc
      rw [h2] at hl
      rw [h1] at ih
      rcases List.mem_cons.1 hl with rfl | hl
      · intro hm
        rcases List.mem_cons.1 hm with e | hm
        · exact hc e.symm
        · exact ih l0 (List.mem_cons_self _ _) hm
      · exact ih l (List.mem_cons_of_mem _ hl)

theorem stringsSplit_append_sep (sep : Char) (a b : Str) :
    stringsSplit sep (a ++ sep :: b) = stringsSplit sep a ++ stringsSplit sep b := by
  induction a with
  | nil => simp [stringsSplit]
  | cons c cs ih =>
    by_cases hc : c = sep
    · subst hc
      rw [List.cons_append, stringsSplit_cons_sep, stringsSplit_cons_sep, ih, List.cons_append]
    · obtain ⟨l, ls, h1, h2⟩ := stringsSplit_cons_ne sep c cs hc
      obtain ⟨l2, ls2, h3, h4⟩ := stringsSplit_cons_ne sep c (cs ++ sep :: b) hc
      rw [List.cons_append, h4, h2]
      rw [ih, h1, List.cons_append] at h3
      simp only [List.cons.injEq] at h3
      rw [← h3.1, ← h3.2, List.cons_append]

theorem stringsJoin_cons_cons (sep l l2 : Str) (ls : List Str) :
    stringsJoin sep (l :: l2 :: ls) = l ++ sep ++ stringsJoin sep (l2 :: ls) := rfl

theorem stringsJoin_cons_of_ne_nil (sep l : Str) (ls : List Str) (h : ls ≠ []) :
    stringsJoin sep (l :: ls) = l ++ sep ++ stringsJoin sep ls := by
  cases ls with
  | nil => exact absurd rfl h
  | cons l2 ls => rfl

theorem stringsJoin_stringsSplit (sep : Char) (s : Str) :
    stringsJoin [sep] (stringsSplit sep s) = s := by
  induction s with
  | nil => rfl
  | cons c cs ih =>
    by_cases hc : c = sep
    · subst hc
      rw [stringsSplit_cons_sep, stringsJoin_cons_of_ne_nil _ _ _ (stringsSplit_ne_nil _ _), ih]
      rfl
    · obtain ⟨l, ls, h1, h2⟩ := stringsSplit_cons_ne sep c cs hc
      rw [h2]
      rw [h1] at ih
      cases ls with
      | nil =>
        simp only [stringsJoin] at ih ⊢
        rw [ih]
      | cons l2 ls =>
        rw [stringsJoin_cons_cons] at ih ⊢
        rw [← ih]
        simp

theorem stringsSplit_stringsJoin (sep : Char) (ls : List Str) (hne : ls ≠ [])
    (h : ∀ l ∈ ls, sep ∉ l) : stringsSplit sep (stringsJoin [sep] ls) = ls := by
  induction ls with
  | nil => exact absurd rfl hne
  | cons l ls ih =>
    have hl : sep ∉ l := h l (List.mem_cons_self _ _)
    cases ls with
    | nil => simpa [stringsJoin] using stringsSplit_no_sep sep l hl
    | cons l2 ls =>
      rw [stringsJoin_cons_cons, List.append_assoc, List.singleton_append,
        stringsSplit_append_sep, stringsSplit_no_sep sep l hl,
        ih (by simp) (fun x hx => h x (List.mem_cons_of_mem _ hx))]
      rfl

/-- A content in the documented format splits into its records and one empty last piece. -/
theorem fileLines_of_terminated (c : Str) (h : NewlineTerminated c) :
    ∃ recs : List Str, fileLines c = recs ++ [[]] ∧
      ∀ d : Str, fileLines (c ++ d) = recs ++ fileLines d := by
  rcases h with rfl | h
  · exact ⟨[], rfl, fun d => by simp⟩
  · have hne : c ≠ [] := by
      intro e
      rw [e] at h
      simp at h
    have hc : c = c.dropLast ++ ['\n'] := by
      have h1 := List.dropLast_append_getLast? '\n' (by simpa using h)
      exact h1.symm
    refine ⟨fileLines c.dropLast, ?_, ?_⟩
    · conv_lhs => rw [hc]
      unfold fileLines
      rw [stringsSplit_append_sep]
      rfl
    · intro d
      conv_lhs => rw [hc]
      unfold fileLines
      rw [List.append_assoc, List.singleton_append, stringsSplit_append_sep]

/-! ### Prefixes, `dropCR` and the scanner -/

theorem stringsHasPrefix_iff (s pre : Str) : stringsHasPrefix s pre = true ↔ pre <+: s := by
  simp [stringsHasPrefix]

theorem stringsHasPrefix_nil (user : Str) : stringsHasPrefix [] (user ++ [':']) = false := by
  rw [Bool.eq_false_iff, Ne, stringsHasPrefix_iff]
  intro h
  have := List.eq_nil_of_prefix_nil h
  simp at this

theorem dropCR_initial (l : Str) : dropCR l <+: l := by
  unfold dropCR
  split
  · exact List.dropLast_prefix l
  · exact List.prefix_refl l

theorem stringsHasPrefix_dropCR (l user : Str) :
    stringsHasPrefix (dropCR l) (user ++ [':']) = stringsHasPrefix l (user ++ [':']) := by
  rw [Bool.eq_iff_iff, stringsHasPrefix_iff, stringsHasPrefix_iff]
  constructor
  · intro h
    exact h.trans (dropCR_initial l)
  · intro h
    unfold dropCR
    split
    · rename_i hlast
      have hl : l = l.dropLast ++ ['\r'] := (List.dropLast_append_getLast? '\r' (by simpa using hlast)).symm
      rw [hl] at h
      rcases List.prefix_concat_iff.1 h with h1 | h1
      · have h2 := congrArg List.getLast? h1
        rw [List.getLast?_concat, List.getLast?_concat] at h2
        simp at h2
      · exact h1
    · exact h

theorem dropCR_of_no_cr (user h : Str) (hr : '\r' ∉ h) :
    dropCR (user ++ [':'] ++ h) = user ++ [':'] ++ h := by
  unfold dropCR
  split
  · rename_i hlast
    exfalso
    rcases List.eq_nil_or_concat h with rfl | ⟨h2, x, rfl⟩
    · rw [List.append_nil, List.getLast?_concat] at hlast
      simp at hlast
    · rw [List.concat_eq_append] at hlast hr
      rw [← List.append_assoc, List.getLast?_concat] at hlast
      simp only [Option.some.injEq] at hlast
      subst hlast
      exact hr (by simp)
  · rfl

theorem scanFrom_eq_scanPieces (data : Str) :
    ∀ (cur l0 : Str) (ls : List Str), stringsSplit '\n' data = l0 :: ls →
      scanFrom cur data = scanPieces ((cur ++ l0) :: ls) := by
  induction data with
  | nil =>
    intro cur l0 ls h
    simp only [stringsSplit, List.cons.injEq] at h
    obtain ⟨rfl, rfl⟩ := h
    simp [scanFrom, scanPieces]
  | cons c rest ih =>
    intro cur l0 ls h
    by_cases hc : c = '\n'
    · subst hc
      rw [stringsSplit_cons_sep] at h
      simp only [List.cons.injEq] at h
      obtain ⟨rfl, rfl⟩ := h
      cases hs : stringsSplit '\n' rest with
      | nil => exact absurd hs (stringsSplit_ne_nil _ _)
      | cons l2 ls2 =>
        have := ih [] l2 ls2 hs
        simp only [List.nil_append] at this
        simp [scanFrom, scanPieces, this]
    · obtain ⟨l, ls2, h1, h2⟩ := stringsSplit_cons_ne '\n' c rest hc
      rw [h2] at h
      simp only [List.cons.injEq] at h
      obtain ⟨rfl, rfl⟩ := h
      have := ih (cur ++ [c]) l ls2 h1
      simp only [scanFrom, hc, if_false]
      rw [this]
      simp

theorem scanLines_eq_scanPieces (c : Str) : scanLines c = scanPieces (fileLines c) := by
  unfold scanLines fileLines
  cases hs : stringsSplit '\n' c with
  | nil => exact absurd hs (stringsSplit_ne_nil _ _)
  | cons l0 ls => simpa using scanFrom_eq_scanPieces c [] l0 ls hs

theorem mem_scanPieces (ls : List Str) : ∀ t ∈ scanPieces ls, ∃ l ∈ ls, t = dropCR l := by
  induction ls with
  | nil => intro t ht; simp [scanPieces] at ht
  | cons l ls ih =>
    intro t ht
    cases ls with
    | nil =>
      simp only [scanPieces] at ht
      split at ht
      · simp at ht
      · split at ht
        · simp at ht
        · simp only [List.mem_singleton] at ht
          exact ⟨l, by simp, ht⟩
    | cons l2 ls =>
      simp only [scanPieces] at ht
      split at ht
      · simp at ht
      · rcases List.mem_cons.1 ht with rfl | ht
        · exact ⟨l, by simp, rfl⟩
        · obtain ⟨x, hx, rfl⟩ := ih t ht
          exact ⟨x, List.mem_cons_of_mem _ hx, rfl⟩

theorem scanPieces_of_long (l l2 : Str) (ls : List Str) (h : MaxScanTokenSize ≤ utf8Len l) :
    scanPieces (l :: l2 :: ls) = [] := by
  simp [scanPieces, h]

theorem find?_scanPieces (p : Str → Bool) (hp : ∀ l, p (dropCR l) = p l) (hnil : p [] = false)
    (ls : List Str) (hfit : ∀ l ∈ ls, utf8Len l < MaxScanTokenSize) :
    (scanPieces ls).find? p = (ls.find? p).map dropCR := by
  induction ls with
  | nil => rfl
  | cons l ls ih =>
    have hl : ¬ MaxScanTokenSize ≤ utf8Len l := Nat.not_le.2 (hfit l (List.mem_cons_self _ _))
    cases ls with
    | nil =>
      simp only [scanPieces]
      split
      · rename_i he
        subst he
        simp [List.find?, hnil]
      · simp only [hl, if_false, List.find?, hp]
        cases p l <;> rfl
    | cons l2 ls =>
      have ih2 := ih fun x hx => hfit x (List.mem_cons_of_mem _ hx)
      simp only [scanPieces, hl, if_false]
      rw [List.find?_cons, List.find?_cons (a := l), hp]
      cases p l
      · simpa using ih2
      · rfl

theorem any_eq_find?_isSome (p : Str → Bool) (ls : List Str) :
    ls.any p = (ls.find? p).isSome := by
  induction ls with
  | nil => rfl
  | cons l ls ih =>
    rw [List.any_cons, List.find?_cons]
    cases p l
    · simpa using ih
    · rfl

/-- When every line fits in the buffer, `userExists` sees every line of the file. -/
theorem userExists_eq_find? (user c : Str) (hfit : LinesFit c) :
    userExists user c =
      ((fileLines c).find? fun line => stringsHasPrefix line (user ++ [':'])).isSome := by
  unfold userExists
  rw [any_eq_find?_isSome, scanLines_eq_scanPieces,
    find?_scanPieces (fun line => stringsHasPrefix line (user ++ [':']))
      (fun l => stringsHasPrefix_dropCR l user) (stringsHasPrefix_nil user) _ hfit]
  simp

theorem stringsSplitN2_prefix (user rest : Str) (h : ':' ∉ user) :
    stringsSplitN2 ':' (user ++ ':' :: rest) = [user, rest] := by
  induction user with
  | nil => simp [stringsSplitN2]
  | cons c cs ih =>
    have hc : c ≠ ':' := fun e => h (by simp [e])
    have hcs : ':' ∉ cs := fun e => h (List.mem_cons_of_mem _ e)
    simp [stringsSplitN2, hc, ih hcs]

theorem getUserHashLoop_eq_find? (user : Str) (h : ':' ∉ user) (ts : List Str) :
    getUserHashLoop user ts =
      match ts.find? fun line => stringsHasPrefix line (user ++ [':']) with
      | some line => .ok (line.drop (user.length + 1))
      | none => .error .userNotFound := by
  induction ts with
  | nil => rfl
  | cons t ts ih =>
    rw [List.find?_cons]
    unfold getUserHashLoop
    cases hp : stringsHasPrefix t (user ++ [':'])
    · simpa using ih
    · obtain ⟨rest, rfl⟩ := (stringsHasPrefix_iff _ _).1 hp
      simp only [if_true]
      rw [List.append_assoc, List.singleton_append, stringsSplitN2_prefix user rest h]
      simp

/-- When every line fits in the buffer, `getUserHash` returns what follows `user:` on the
first line of the file that starts with `user:`. -/
theorem getUserHash_eq_find? (user c : Str) (h : ':' ∉ user) (hfit : LinesFit c) :
    getUserHash user c =
      match (fileLines c).find? fun line => stringsHasPrefix line (user ++ [':']) with
      | some line => .ok ((dropCR line).drop (user.length + 1))
      | none => .error .userNotFound := by
  unfold getUserHash
  rw [getUserHashLoop_eq_find? user h, scanLines_eq_scanPieces,
    find?_scanPieces (fun line => stringsHasPrefix line (user ++ [':']))
      (fun l => stringsHasPrefix_dropCR l user) (stringsHasPrefix_nil user) _ hfit]
  cases (fileLines c).find? fun line => stringsHasPrefix line (user ++ [':']) <;> rfl

/-! ### Valid identifiers -/

theorem isLocalChar_of_isDomainChar (c : Char) (h : isDomainChar c = true) :
    isLocalChar c = true := by
  simp only [isDomainChar, isLocalChar, Bool.or_eq_true] at h ⊢
  rcases h with (h | h) | h
  · exact Or.inl (Or.inl (Or.inl (Or.inl (Or.inl h))))
  · exact Or.inl (Or.inl (Or.inl (Or.inl (Or.inr h))))
  · exact Or.inr h

theorem isLocalChar_of_isAlpha (c : Char) (h : c.isAlpha = true) : isLocalChar c = true := by
  simp only [isLocalChar, Char.isAlphanum, Bool.or_eq_true]
  exact Or.inl (Or.inl (Or.inl (Or.inl (Or.inl (Or.inl h)))))

/-- Every character of a valid identifier is in the class of the local part or is `@`. -/
theorem isValidEmail_chars (e : Str) (h : isValidEmail e = true) :
    ∀ c ∈ e, isLocalChar c = true ∨ c = '@' := by
  obtain ⟨loc, domain, tld, rfl, _, hl, _, hd, _, ht⟩ := (isValidEmail_iff_shape e).1 h
  intro c hc
  simp only [List.mem_append, List.mem_cons] at hc
  rcases hc with hc | rfl | hc | rfl | hc
  · exact Or.inl (hl c hc)
  · exact Or.inr rfl
  · exact Or.inl (isLocalChar_of_isDomainChar c (hd c hc))
  · exact Or.inl (by decide)
  · exact Or.inl (isLocalChar_of_isAlpha c (ht c hc))

theorem colon_not_mem_of_valid (e : Str) (h : isValidEmail e = true) : ':' ∉ e := by
  intro hc
  rcases isValidEmail_chars e h ':' hc with h1 | h1
  · exact absurd h1 (by decide)
  · exact absurd h1 (by decide)

theorem newline_not_mem_of_valid (e : Str) (h : isValidEmail e = true) : '\n' ∉ e := by
  intro hc
  rcases isValidEmail_chars e h '\n' hc with h1 | h1
  · exact absurd h1 (by decide)
  · exact absurd h1 (by decide)

theorem colon_prefix_inj (a : Str) :
    ∀ (b rest : Str), ':' ∉ a → ':' ∉ b → a ++ [':'] <+: b ++ ':' :: rest → a = b := by
  induction a with
  | nil =>
    intro b rest _ hb h
    cases b with
    | nil => rfl
    | cons y b2 =>
      rw [List.nil_append, List.cons_append, List.cons_prefix_cons] at h
      exact absurd (List.mem_cons.2 (Or.inl h.1)) hb
  | cons x a2 ih =>
    intro b rest ha hb h
    cases b with
    | nil =>
      rw [List.nil_append, List.cons_append, List.cons_prefix_cons] at h
      exact absurd (List.mem_cons.2 (Or.inl h.1.symm)) ha
    | cons y b2 =>
      rw [List.cons_append, List.cons_append, List.cons_prefix_cons] at h
      rw [h.1, ih b2 rest (fun e => ha (List.mem_cons_of_mem _ e))
        (fun e => hb (List.mem_cons_of_mem _ e)) h.2]

/-- A record of one valid identifier is not a record of another one. -/
theorem stringsHasPrefix_record (e user hash : Str) (he : isValidEmail e = true)
    (hu : isValidEmail user = true) :
    stringsHasPrefix (user ++ [':'] ++ hash) (e ++ [':']) = decide (e = user) := by
  rw [Bool.eq_iff_iff, stringsHasPrefix_iff, decide_eq_true_iff]
  constructor
  · intro h
    rw [List.append_assoc, List.singleton_append] at h
    exact colon_prefix_inj e user hash (colon_not_mem_of_valid e he)
      (colon_not_mem_of_valid user hu) h
  · rintro rfl
    exact List.prefix_append _ _

/-- A line that starts with `user:` does not start with `e:` for another valid `e`. -/
theorem stringsHasPrefix_other (e user line : Str) (he : isValidEmail e = true)
    (hu : isValidEmail user = true) (hne : e ≠ user)
    (h : stringsHasPrefix line (user ++ [':']) = true) :
    stringsHasPrefix line (e ++ [':']) = false := by
  obtain ⟨rest, rfl⟩ := (stringsHasPrefix_iff _ _).1 h
  rw [stringsHasPrefix_record e user rest he hu]
  simpa using hne

/-! ### The lines of the file after each store operation -/

theorem newline_not_mem_record (user hash : Str) (hu : '\n' ∉ user) (hh : '\n' ∉ hash) :
    '\n' ∉ user ++ [':'] ++ hash := by
  simp only [List.mem_append, List.mem_singleton, not_or]
  exact ⟨⟨hu, by decide⟩, hh⟩

theorem fileLines_addUserToPasswd (c user hash : Str) (hdoc : NewlineTerminated c)
    (hu : '\n' ∉ user) (hh : '\n' ∉ hash) :
    ∃ recs : List Str, fileLines c = recs ++ [[]] ∧
      fileLines (addUserToPasswd user hash c) = recs ++ [user ++ [':'] ++ hash, []] := by
  obtain ⟨recs, h1, h2⟩ := fileLines_of_terminated c hdoc
  refine ⟨recs, h1, ?_⟩
  unfold addUserToPasswd
  rw [h2]
  unfold fileLines
  rw [stringsSplit_append_sep, stringsSplit_no_sep _ _ (newline_not_mem_record user hash hu hh)]
  rfl

theorem fileLines_removeUserFromPasswd (c user : Str) :
    fileLines (removeUserFromPasswd user c) =
      if (fileLines c).filter (fun line => !stringsHasPrefix line (user ++ [':'])) = [] then [[]]
      else (fileLines c).filter fun line => !stringsHasPrefix line (user ++ [':']) := by
  unfold removeUserFromPasswd
  split
  · rename_i h
    unfold fileLines at h
    rw [h]
    rfl
  · rename_i h
    unfold fileLines at h ⊢
    exact stringsSplit_stringsJoin '\n' _ h fun l hl =>
      not_mem_of_mem_stringsSplit '\n' c l (List.mem_of_mem_filter hl)

theorem fileLines_updateUserPassword (c user hash : Str) (hh : '\n' ∉ hash) :
    fileLines (updateUserPassword user hash c) =
      (fileLines c).map fun line =>
        if stringsHasPrefix line (user ++ [':']) then user ++ [':'] ++ hash else line := by
  unfold updateUserPassword fileLines
  apply stringsSplit_stringsJoin
  · simpa using stringsSplit_ne_nil '\n' c
  · intro l hl
    obtain ⟨x, hx, rfl⟩ := List.mem_map.1 hl
    have hxn := not_mem_of_mem_stringsSplit '\n' c x hx
    split
    · rename_i hp
      obtain ⟨rest, rfl⟩ := (stringsHasPrefix_iff _ _).1 hp
      apply newline_not_mem_record _ _ _ hh
      intro hm
      exact hxn (by simp [hm])
    · exact hxn

theorem stringsJoin_concat_nil (sep : Str) (xs : List Str) (h : xs ≠ []) :
    stringsJoin sep (xs ++ [[]]) = stringsJoin sep xs ++ sep := by
  induction xs with
  | nil => exact absurd rfl h
  | cons x xs ih =>
    cases xs with
    | nil => simp [stringsJoin]
    | cons x2 xs =>
      rw [List.cons_append, List.cons_append, stringsJoin_cons_cons, stringsJoin_cons_cons,
        ← List.cons_append, ih (by simp)]
      simp

theorem newlineTerminated_stringsJoin (xs : List Str) :
    NewlineTerminated (stringsJoin ['\n'] (xs ++ [[]])) := by
  cases xs with
  | nil => exact Or.inl rfl
  | cons x xs =>
    right
    rw [stringsJoin_concat_nil _ _ (by simp), List.getLast?_concat]

/-! ### A line that does not fit in the buffer of the scanner -/

theorem utf8Len_replicate_x (n : Nat) : utf8Len (List.replicate n 'x') = n := by
  induction n with
  | zero => rfl
  | succ n ih =>
    rw [List.replicate_succ, utf8Len, ih]
    have : Char.utf8Size 'x' = 1 := by decide
    omega

theorem utf8Len_append (a b : Str) : utf8Len (a ++ b) = utf8Len a + utf8Len b := by
  induction a with
  | nil => simp [utf8Len]
  | cons x xs ih =>
    rw [List.cons_append, utf8Len, utf8Len, ih]
    omega

theorem utf8Len_longLine : MaxScanTokenSize ≤ utf8Len longLine := by
  unfold longLine
  rw [utf8Len, utf8Len_replicate_x]
  omega

theorem newline_not_mem_longLine : '\n' ∉ longLine := by
  unfold longLine
  intro h
  rcases List.mem_cons.1 h with h | h
  · exact absurd h (by decide)
  · exact absurd (List.eq_of_mem_replicate h) (by decide)

theorem fileLines_line_cons (l rest : Str) (h : '\n' ∉ l) :
    fileLines (l ++ '\n' :: rest) = l :: fileLines rest := by
  unfold fileLines
  rw [stringsSplit_append_sep, stringsSplit_no_sep _ _ h]
  rfl

theorem scanLines_of_long (l rest : Str) (hn : '\n' ∉ l) (h : MaxScanTokenSize ≤ utf8Len l) :
    scanLines (l ++ '\n' :: rest) = [] := by
  rw [scanLines_eq_scanPieces, fileLines_line_cons l rest hn]
  cases hs : fileLines rest with
  | nil => exact absurd hs (stringsSplit_ne_nil _ _)
  | cons l2 ls => exact scanPieces_of_long l l2 ls h

theorem stringsHasPrefix_longLine (e : Str) (he : isValidEmail e = true) :
    stringsHasPrefix longLine (e ++ [':']) = false := by
  rw [Bool.eq_false_iff, Ne, stringsHasPrefix_iff]
  intro h
  cases e with
  | nil => exact absurd he (by decide)
  | cons c e2 =>
    unfold longLine at h
    rw [List.cons_append, List.cons_prefix_cons] at h
    rcases isValidEmail_chars _ he c (List.mem_cons_self _ _) with h1 | h1
    · rw [h.1] at h1
      exact absurd h1 (by decide)
    · rw [h.1] at h1
      exact absurd h1 (by decide)

/-! ### The shape of a valid identifier -/

/-- C1 as stated fails: `a@..com` is accepted although the text between `@` and the last dot
is `.`, which is not a sequence of non-empty labels. -/
theorem isValidEmail_accepts_empty_label :
    isValidEmail "a@..com".toList = true ∧ ¬ SpecEmailShape "a@..com".toList := by
  refine ⟨by decide, ?_⟩
  rintro ⟨loc, labels, tld, hs, hl1, hl2, hlab1, hlab2, _, _⟩
  have hs2 : ['a', '@', '.', '.', 'c', 'o', 'm'] =
      loc ++ '@' :: (stringsJoin ['.'] labels ++ '.' :: tld) := hs
  cases loc with
  | nil => exact hl1 rfl
  | cons c loc2 =>
    rw [List.cons_append, List.cons.injEq] at hs2
    cases loc2 with
    | cons y loc3 =>
      rw [List.cons_append, List.cons.injEq] at hs2
      have hy := hl2 y (by simp)
      rw [← hs2.2.1] at hy
      exact absurd hy (by decide)
    | nil =>
      rw [List.nil_append, List.cons.injEq] at hs2
      cases labels with
      | nil => exact hlab1 rfl
      | cons l1 ls =>
        have h1 := hlab2 l1 (List.mem_cons_self _ _)
        cases l1 with
        | nil => exact h1.1 rfl
        | cons d l1b =>
          have hd := h1.2 d (List.mem_cons_self _ _)
          have hhead : ∃ t, stringsJoin ['.'] ((d :: l1b) :: ls) = d :: t := by
            cases ls with
            | nil => exact ⟨l1b, rfl⟩
            | cons l2 ls2 => exact ⟨_, rfl⟩
          obtain ⟨t, ht⟩ := hhead
          rw [ht, List.cons_append, List.cons.injEq] at hs2
          rw [← hs2.2.2.1] at hd
          exact absurd hd (by decide)

/-- C1, amended: `isValidEmail s` holds exactly when `s` is `local@domain.tld` where `local`
is a non-empty string over `[A-Za-z0-9._%+-]`, `domain` is a non-empty string over
`[A-Za-z0-9.-]` (its labels may be empty) and `tld` is at least two ASCII letters. -/
theorem isValidEmail_iff (s : Str) :
    isValidEmail s = true ↔
      ∃ loc domain tld : Str,
        s = loc ++ '@' :: (domain ++ '.' :: tld) ∧
        loc ≠ [] ∧ (∀ c ∈ loc, isLocalChar c = true) ∧
        domain ≠ [] ∧ (∀ c ∈ domain, isDomainChar c = true) ∧
        2 ≤ tld.length ∧ (∀ c ∈ tld, c.isAlpha = true) :=
  isValidEmail_iff_shape s

/-! ### Lookup after a store operation -/

theorem drop_record (user hash : Str) :
    (user ++ [':'] ++ hash).drop (user.length + 1) = hash := by
  apply List.drop_left'
  simp

/-- C2 fails on the code: append then lookup does not return the appended hash behind a line
that does not fit in the buffer of the scanner. The content `longLine ++ "\n"` is
newline-terminated and has no line starting with `a@b.cc:`, the identifier is valid and the
hash has neither a newline nor a carriage return; `addUserToPasswd` appends the record
`a@b.cc:H` as its last line, and `getUserHash`, which never reads `scanner.Err()`, answers
`user not found`. -/
theorem getUserHash_addUserToPasswd_long_line :
    NewlineTerminated (longLine ++ ['\n']) ∧
    (∀ l ∈ fileLines (longLine ++ ['\n']),
      stringsHasPrefix l ("a@b.cc".toList ++ [':']) = false) ∧
    isValidEmail "a@b.cc".toList = true ∧ '\n' ∉ "H".toList ∧ '\r' ∉ "H".toList ∧
    fileLines (addUserToPasswd "a@b.cc".toList "H".toList (longLine ++ ['\n'])) =
      [longLine, "a@b.cc:H".toList, []] ∧
    getUserHash "a@b.cc".toList
      (addUserToPasswd "a@b.cc".toList "H".toList (longLine ++ ['\n'])) =
        .error .userNotFound := by
  refine ⟨Or.inr (List.getLast?_concat _), ?_, by decide, by decide, by decide, ?_, ?_⟩
  · intro l hl
    rw [fileLines_line_cons _ _ newline_not_mem_longLine] at hl
    rcases List.mem_cons.1 hl with rfl | hl
    · exact stringsHasPrefix_longLine _ (by decide)
    · have : l = [] := by simpa [fileLines, stringsSplit] using hl
      subst this
      exact stringsHasPrefix_nil _
  · unfold addUserToPasswd
    rw [List.append_assoc, List.singleton_append,
      fileLines_line_cons _ _ newline_not_mem_longLine]
    rfl
  · unfold getUserHash addUserToPasswd
    rw [List.append_assoc, List.singleton_append,
      scanLines_of_long _ _ newline_not_mem_longLine utf8Len_longLine]
    rfl

/-- Where the scan is not cut short, append then lookup does return the appended hash: the
content is in the documented format and has no line starting with `id:`, `id` is a valid
identifier, the hash contains neither a newline nor a carriage return, and every line of the
resulting file fits in the buffer of the scanner. -/
theorem getUserHash_addUserToPasswd (c id h : Str) (hdoc : NewlineTerminated c)
    (hnone : ∀ l ∈ fileLines c, stringsHasPrefix l (id ++ [':']) = false)
    (hid : isValidEmail id = true) (hn : '\n' ∉ h) (hr : '\r' ∉ h)
    (hfit : LinesFit (addUserToPasswd id h c)) :
    getUserHash id (addUserToPasswd id h c) = .ok h := by
  obtain ⟨recs, h1, h2⟩ :=
    fileLines_addUserToPasswd c id h hdoc (newline_not_mem_of_valid id hid) hn
  rw [getUserHash_eq_find? id _ (colon_not_mem_of_valid id hid) hfit, h2, List.find?_append]
  have hrecs : recs.find? (fun line => stringsHasPrefix line (id ++ [':'])) = none := by
    rw [List.find?_eq_none]
    intro x hx
    rw [hnone x (by rw [h1]; exact List.mem_append_left _ hx)]
    simp
  have hrec : stringsHasPrefix (id ++ [':'] ++ h) (id ++ [':']) = true :=
    (stringsHasPrefix_iff _ _).2 (List.prefix_append _ _)
  rw [hrecs, List.find?_cons, hrec]
  simp only [Option.none_or]
  rw [dropCR_of_no_cr id h hr, drop_record]

/-- An instance of `getUserHash_addUserToPasswd`: a store with one record, to which
`bob@example.com` is appended. -/
theorem getUserHash_addUserToPasswd_witness :
    getUserHash "bob@example.com".toList
      (addUserToPasswd "bob@example.com".toList "HASH2".toList
        "alice@example.com:HASH1\n".toList) = .ok "HASH2".toList :=
  getUserHash_addUserToPasswd "alice@example.com:HASH1\n".toList "bob@example.com".toList
    "HASH2".toList (by decide) (by decide) (by decide) (by decide) (by decide) (by decide)

theorem find?_map_update (user hash : Str) (ls : List Str) :
    (ls.map fun line =>
        if stringsHasPrefix line (user ++ [':']) then user ++ [':'] ++ hash else line).find?
      (fun line => stringsHasPrefix line (user ++ [':'])) =
    (ls.find? fun line => stringsHasPrefix line (user ++ [':'])).map
      fun _ => user ++ [':'] ++ hash := by
  have hrec : stringsHasPrefix (user ++ [':'] ++ hash) (user ++ [':']) = true :=
    (stringsHasPrefix_iff _ _).2 (List.prefix_append _ _)
  induction ls with
  | nil => rfl
  | cons l ls ih =>
    rw [List.map_cons, List.find?_cons, List.find?_cons]
    cases hp : stringsHasPrefix l (user ++ [':'])
    · simp only [Bool.false_eq_true, if_false, hp]
      exact ih
    · simp only [if_true, hrec, Option.map_some']

/-- C3 fails on the code: replace then lookup does not return the new hash when a line before
the record does not fit in the buffer of the scanner. The content has the line `a@b.cc:OLD`,
the identifier is valid and the hash has neither a newline nor a carriage return;
`updateUserPassword`, which reads with `os.ReadFile` and `strings.Split`, finds the record and
writes `a@b.cc:NEW`, and `getUserHash`, which never reads `scanner.Err()`, answers
`user not found` on the content just written. -/
theorem getUserHash_updateUserPassword_long_line :
    (∃ l ∈ fileLines (longLine ++ '\n' :: "a@b.cc:OLD\n".toList),
      stringsHasPrefix l ("a@b.cc".toList ++ [':']) = true) ∧
    isValidEmail "a@b.cc".toList = true ∧ '\n' ∉ "NEW".toList ∧ '\r' ∉ "NEW".toList ∧
    updateUserPassword "a@b.cc".toList "NEW".toList
        (longLine ++ '\n' :: "a@b.cc:OLD\n".toList) =
      longLine ++ '\n' :: "a@b.cc:NEW\n".toList ∧
    getUserHash "a@b.cc".toList
      (updateUserPassword "a@b.cc".toList "NEW".toList
        (longLine ++ '\n' :: "a@b.cc:OLD\n".toList)) = .error .userNotFound := by
  have hlines : fileLines (longLine ++ '\n' :: "a@b.cc:OLD\n".toList) =
      [longLine, "a@b.cc:OLD".toList, []] := by
    rw [fileLines_line_cons _ _ newline_not_mem_longLine]
    rfl
  have hupd : updateUserPassword "a@b.cc".toList "NEW".toList
        (longLine ++ '\n' :: "a@b.cc:OLD\n".toList) =
        longLine ++ '\n' :: "a@b.cc:NEW\n".toList := by
      unfold updateUserPassword
      have h := hlines
      unfold fileLines at h
      have hm : List.map (fun line =>
          if stringsHasPrefix line ("a@b.cc".toList ++ [':']) then
            "a@b.cc".toList ++ [':'] ++ "NEW".toList else line)
          ["a@b.cc:OLD".toList, []] = ["a@b.cc:NEW".toList, []] := by decide
      rw [h, List.map_cons, stringsHasPrefix_longLine _ (by decide), hm]
      simp only [Bool.false_eq_true, if_false]
      rw [stringsJoin_cons_cons, List.append_assoc, List.singleton_append]
      rfl
  refine ⟨⟨"a@b.cc:OLD".toList, ?_, by decide⟩, by decide, by decide, by decide, hupd, ?_⟩
  · rw [hlines]
    simp
  · unfold getUserHash
    rw [hupd, scanLines_of_long _ _ newline_not_mem_longLine utf8Len_longLine]
    rfl

/-- Where the scan is not cut short, replace then lookup does return the new hash: the content
has a line starting with `id:`, `id` is a valid identifier, the hash contains neither a
newline nor a carriage return, and every line of the resulting file fits in the buffer of the
scanner. -/
theorem getUserHash_updateUserPassword (c id h : Str)
    (hex : ∃ l ∈ fileLines c, stringsHasPrefix l (id ++ [':']) = true)
    (hid : isValidEmail id = true) (hn : '\n' ∉ h) (hr : '\r' ∉ h)
    (hfit : LinesFit (updateUserPassword id h c)) :
    getUserHash id (updateUserPassword id h c) = .ok h := by
  rw [getUserHash_eq_find? id _ (colon_not_mem_of_valid id hid) hfit,
    fileLines_updateUserPassword c id h hn, find?_map_update]
  obtain ⟨l, hl, hp⟩ := hex
  cases hf : (fileLines c).find? fun line => stringsHasPrefix line (id ++ [':']) with
  | none =>
    rw [List.find?_eq_none] at hf
    exact absurd hp (hf l hl)
  | some x =>
    simp only [Option.map_some']
    rw [dropCR_of_no_cr id h hr, drop_record]

/-- An instance of `getUserHash_updateUserPassword`: the hash of `alice@example.com` is
replaced in a store of two records. -/
theorem getUserHash_updateUserPassword_witness :
    getUserHash "alice@example.com".toList
      (updateUserPassword "alice@example.com".toList "HASH2".toList
        "bob@example.com:HASH0\nalice@example.com:HASH1\n".toList) = .ok "HASH2".toList :=
  getUserHash_updateUserPassword "bob@example.com:HASH0\nalice@example.com:HASH1\n".toList
    "alice@example.com".toList "HASH2".toList
    ⟨"alice@example.com:HASH1".toList, by decide, by decide⟩
    (by decide) (by decide) (by decide) (by decide)

/-! ### Frame properties of replace and remove -/

/-- C4: replace leaves all other lines unchanged and in their original order. For a hash
without a newline, the lines of the content written by `updateUserPassword` are as many as
the lines of the original content; at a position whose original line starts with `id:` the
line is `id:h`, at every other position it is the original line. -/
theorem updateUserPassword_lines (c id h : Str) (hn : '\n' ∉ h) :
    (fileLines (updateUserPassword id h c)).length = (fileLines c).length ∧
    ∀ (i : Nat) (line : Str), (fileLines c)[i]? = some line →
      (fileLines (updateUserPassword id h c))[i]? =
        some (if stringsHasPrefix line (id ++ [':']) then id ++ [':'] ++ h else line) := by
  rw [fileLines_updateUserPassword c id h hn]
  refine ⟨List.length_map _ _, ?_⟩
  intro i line hi
  rw [List.getElem?_map, hi]
  rfl

/-- Witness for C4: the second of three records is replaced; the file keeps its three
records and its empty last piece. -/
theorem updateUserPassword_lines_witness :
    (fileLines (updateUserPassword "b@x.org".toList "NEW".toList
        "a@x.org:H1\nb@x.org:H2\nc@x.org:H3\n".toList)).length =
      (fileLines "a@x.org:H1\nb@x.org:H2\nc@x.org:H3\n".toList).length ∧
    ∀ (i : Nat) (line : Str),
      (fileLines "a@x.org:H1\nb@x.org:H2\nc@x.org:H3\n".toList)[i]? = some line →
      (fileLines (updateUserPassword "b@x.org".toList "NEW".toList
          "a@x.org:H1\nb@x.org:H2\nc@x.org:H3\n".toList))[i]? =
        some (if stringsHasPrefix line ("b@x.org".toList ++ [':']) then
          "b@x.org".toList ++ [':'] ++ "NEW".toList else line) :=
  updateUserPassword_lines "a@x.org:H1\nb@x.org:H2\nc@x.org:H3\n".toList "b@x.org".toList
    "NEW".toList (by decide)

/-- C5: remove then exists returns false, for every content and every identifier. -/
theorem userExists_removeUserFromPasswd (c id : Str) :
    userExists id (removeUserFromPasswd id c) = false := by
  rw [Bool.eq_false_iff]
  intro h
  unfold userExists at h
  rw [List.any_eq_true] at h
  obtain ⟨t, ht, hp⟩ := h
  rw [scanLines_eq_scanPieces] at ht
  obtain ⟨l, hl, rfl⟩ := mem_scanPieces _ t ht
  rw [stringsHasPrefix_dropCR] at hp
  rw [fileLines_removeUserFromPasswd] at hl
  split at hl
  · rw [List.mem_singleton] at hl
    subst hl
    rw [stringsHasPrefix_nil] at hp
    exact absurd hp (by decide)
  · have := (List.mem_filter.1 hl).2
    rw [hp] at this
    exact absurd this (by decide)

/-! ### Uniqueness of the identifiers -/

theorem recordsOf_length_map (e user hash : Str) (he : isValidEmail e = true)
    (hu : isValidEmail user = true) (ls : List Str) :
    ((ls.map fun line =>
          if stringsHasPrefix line (user ++ [':']) then user ++ [':'] ++ hash else line).filter
        fun line => stringsHasPrefix line (e ++ [':'])).length =
      (ls.filter fun line => stringsHasPrefix line (e ++ [':'])).length := by
  induction ls with
  | nil => rfl
  | cons l ls ih =>
    have key : stringsHasPrefix
        (if stringsHasPrefix l (user ++ [':']) then user ++ [':'] ++ hash else l) (e ++ [':']) =
        stringsHasPrefix l (e ++ [':']) := by
      cases hp : stringsHasPrefix l (user ++ [':'])
      · simp only [Bool.false_eq_true, if_false]
      · simp only [if_true]
        by_cases hne : e = user
        · subst hne
          rw [hp]
          exact (stringsHasPrefix_iff _ _).2 (List.prefix_append _ _)
        · rw [stringsHasPrefix_other e user l he hu hne hp,
            stringsHasPrefix_record e user hash he hu]
          simpa using hne
    rw [List.map_cons, List.filter_cons, List.filter_cons, key]
    split
    · simp only [List.length_cons, ih]
    · exact ih

/-- C6 fails on the code, for `addUserToPasswd` behind the create guard: the content is in the
documented format, has at most one line per valid identifier and holds the record `a@b.cc:X`
behind a line that does not fit in the buffer of the scanner. `userExists`, which never reads
`scanner.Err()`, answers false for `a@b.cc`, the guard lets the create through, and after
`addUserToPasswd` two lines start with `a@b.cc:`. -/
theorem uniqueIds_addUserToPasswd_long_line :
    NewlineTerminated (longLine ++ '\n' :: "a@b.cc:X\n".toList) ∧
    UniqueIds (longLine ++ '\n' :: "a@b.cc:X\n".toList) ∧
    isValidEmail "a@b.cc".toList = true ∧ '\n' ∉ "Y".toList ∧
    userExists "a@b.cc".toList (longLine ++ '\n' :: "a@b.cc:X\n".toList) = false ∧
    recordsOf "a@b.cc".toList
        (addUserToPasswd "a@b.cc".toList "Y".toList
          (longLine ++ '\n' :: "a@b.cc:X\n".toList)) =
      ["a@b.cc:X".toList, "a@b.cc:Y".toList] ∧
    ¬ UniqueIds
      (addUserToPasswd "a@b.cc".toList "Y".toList (longLine ++ '\n' :: "a@b.cc:X\n".toList)) := by
  have hrec : recordsOf "a@b.cc".toList
      (addUserToPasswd "a@b.cc".toList "Y".toList
        (longLine ++ '\n' :: "a@b.cc:X\n".toList)) =
      ["a@b.cc:X".toList, "a@b.cc:Y".toList] := by
    unfold recordsOf addUserToPasswd
    rw [List.append_assoc, List.cons_append,
      fileLines_line_cons _ _ newline_not_mem_longLine, List.filter_cons,
      stringsHasPrefix_longLine _ (by decide)]
    simp only [Bool.false_eq_true, if_false]
    decide
  refine ⟨Or.inr ?_, ?_, by decide, by decide, ?_, hrec, ?_⟩
  · rw [List.getLast?_append]
    rfl
  · intro e he
    unfold recordsOf
    rw [fileLines_line_cons _ _ newline_not_mem_longLine, List.filter_cons,
      stringsHasPrefix_longLine e he]
    simp only [Bool.false_eq_true, if_false]
    have hl : fileLines "a@b.cc:X\n".toList = ["a@b.cc:X".toList, []] := by decide
    rw [hl, List.filter_cons, List.filter_cons, stringsHasPrefix_nil]
    split <;> simp
  · unfold userExists
    rw [scanLines_of_long _ _ newline_not_mem_longLine utf8Len_longLine]
    rfl
  · intro h
    have h2 := h "a@b.cc".toList (by decide)
    rw [hrec] at h2
    exact absurd h2 (by decide)

/-- Where the scan of the create guard is not cut short, the uniqueness invariant is kept:
`removeUserFromPasswd` and `updateUserPassword` keep it on every content, and
`addUserToPasswd` behind the guard keeps it when every line of the content fits in the buffer
of the scanner. The content is in the documented format with at most one line per valid
identifier, `id` is valid and the hash has no newline. -/
theorem uniqueIds_preserved (c id h : Str) (hdoc : NewlineTerminated c) (huniq : UniqueIds c)
    (hid : isValidEmail id = true) (hn : '\n' ∉ h) :
    (LinesFit c → userExists id c = false →
      NewlineTerminated (addUserToPasswd id h c) ∧ UniqueIds (addUserToPasswd id h c)) ∧
    (NewlineTerminated (removeUserFromPasswd id c) ∧ UniqueIds (removeUserFromPasswd id c)) ∧
    (NewlineTerminated (updateUserPassword id h c) ∧ UniqueIds (updateUserPassword id h c)) := by
  obtain ⟨recs, h1, h2⟩ :=
    fileLines_addUserToPasswd c id h hdoc (newline_not_mem_of_valid id hid) hn
  refine ⟨?_, ⟨?_, ?_⟩, ⟨?_, ?_⟩⟩
  · intro hfit hguard
    refine ⟨Or.inr ?_, ?_⟩
    · unfold addUserToPasswd
      rw [← List.append_assoc, List.getLast?_concat]
    · intro e he
      have hold := huniq e he
      unfold recordsOf at hold ⊢
      rw [h1, List.filter_append] at hold
      rw [h2, List.filter_append, List.length_append]
      rw [List.length_append] at hold
      have hnil : List.filter (fun line => stringsHasPrefix line (e ++ [':'])) [[]] = [] := by
        rw [List.filter_cons, stringsHasPrefix_nil]
        rfl
      rw [List.filter_cons, List.filter_cons, stringsHasPrefix_nil,
        stringsHasPrefix_record e id h he hid]
      by_cases hne : e = id
      · subst hne
        rw [userExists_eq_find? e c hfit, h1] at hguard
        have hnone : (recs ++ [[]]).find?
            (fun line => stringsHasPrefix line (e ++ [':'])) = none := by
          cases hf : (recs ++ [[]]).find? fun line => stringsHasPrefix line (e ++ [':']) with
          | none => rfl
          | some x =>
            rw [hf] at hguard
            simp at hguard
        rw [List.find?_eq_none] at hnone
        have hrecs : recs.filter (fun line => stringsHasPrefix line (e ++ [':'])) = [] := by
          rw [List.filter_eq_nil_iff]
          intro x hx
          exact hnone x (List.mem_append_left _ hx)
        rw [hrecs]
        simp
      · simp only [hne, decide_False, Bool.false_eq_true, if_false, List.filter_nil,
          List.length_nil, Nat.add_zero]
        omega
  · rw [removeUserFromPasswd, ← fileLines, h1, List.filter_append]
    have hnil : List.filter (fun line => !stringsHasPrefix line (id ++ [':'])) [[]] = [[]] := by
      rw [List.filter_cons, stringsHasPrefix_nil]
      rfl
    rw [hnil]
    exact newlineTerminated_stringsJoin _
  · intro e he
    have hold := huniq e he
    unfold recordsOf at hold ⊢
    rw [fileLines_removeUserFromPasswd]
    split
    · rw [List.filter_cons, stringsHasPrefix_nil]
      simp
    · exact Nat.le_trans
        ((List.filter_sublist _).filter fun line =>
          stringsHasPrefix line (e ++ [':'])).length_le hold
  · rw [updateUserPassword, ← fileLines, h1, List.map_append]
    have hnil : List.map (fun line =>
        if stringsHasPrefix line (id ++ [':']) then id ++ [':'] ++ h else line) [[]] = [[]] := by
      rw [List.map_cons, stringsHasPrefix_nil]
      rfl
    rw [hnil]
    exact newlineTerminated_stringsJoin _
  · intro e he
    have hold := huniq e he
    unfold recordsOf at hold ⊢
    rw [fileLines_updateUserPassword c id h hn, recordsOf_length_map e id h he hid]
    exact hold

/-- A store of two records has at most one line per valid identifier. -/
theorem uniqueIds_two_records :
    UniqueIds "alice@example.com:H1\nbob@example.com:H2\n".toList := by
  intro e he
  have hl : recordsOf e "alice@example.com:H1\nbob@example.com:H2\n".toList =
      (["alice@example.com:H1".toList, "bob@example.com:H2".toList, []].filter
        fun line => stringsHasPrefix line (e ++ [':'])) := by
    unfold recordsOf
    have : fileLines "alice@example.com:H1\nbob@example.com:H2\n".toList =
        ["alice@example.com:H1".toList, "bob@example.com:H2".toList, []] := by decide
    rw [this]
  rw [hl, List.filter_cons, List.filter_cons, List.filter_cons, stringsHasPrefix_nil]
  have ha := stringsHasPrefix_record e "alice@example.com".toList "H1".toList he (by decide)
  have hb := stringsHasPrefix_record e "bob@example.com".toList "H2".toList he (by decide)
  have ha2 : stringsHasPrefix "alice@example.com:H1".toList (e ++ [':']) =
      decide (e = "alice@example.com".toList) := ha
  have hb2 : stringsHasPrefix "bob@example.com:H2".toList (e ++ [':']) =
      decide (e = "bob@example.com".toList) := hb
  rw [ha2, hb2]
  by_cases h1 : e = "alice@example.com".toList
  · subst h1
    decide
  · by_cases h2 : e = "bob@example.com".toList
    · subst h2
      decide
    · rw [decide_eq_false h1, decide_eq_false h2]
      simp

/-- An instance of `uniqueIds_preserved` on a store of two records: `carol@example.com`, which
is not in it, is added; `alice@example.com`, which is in it, is removed and has its hash
replaced. -/
theorem uniqueIds_preserved_witness :
    (NewlineTerminated (addUserToPasswd "carol@example.com".toList "H3".toList
        "alice@example.com:H1\nbob@example.com:H2\n".toList) ∧
      UniqueIds (addUserToPasswd "carol@example.com".toList "H3".toList
        "alice@example.com:H1\nbob@example.com:H2\n".toList)) ∧
    (NewlineTerminated (removeUserFromPasswd "alice@example.com".toList
        "alice@example.com:H1\nbob@example.com:H2\n".toList) ∧
      UniqueIds (removeUserFromPasswd "alice@example.com".toList
        "alice@example.com:H1\nbob@example.com:H2\n".toList)) ∧
    (NewlineTerminated (updateUserPassword "alice@example.com".toList "H3".toList
        "alice@example.com:H1\nbob@example.com:H2\n".toList) ∧
      UniqueIds (updateUserPassword "alice@example.com".toList "H3".toList
        "alice@example.com:H1\nbob@example.com:H2\n".toList)) :=
  have key := uniqueIds_preserved "alice@example.com:H1\nbob@example.com:H2\n".toList
    "carol@example.com".toList "H3".toList (by decide) uniqueIds_two_records (by decide)
    (by decide)
  have key2 := uniqueIds_preserved "alice@example.com:H1\nbob@example.com:H2\n".toList
    "alice@example.com".toList "H3".toList (by decide) uniqueIds_two_records (by decide)
    (by decide)
  ⟨key.1 (by decide) (by decide), key2.2⟩

/-! ### The command dispatcher -/

/-- A wrong old password stops `handleChangePassword` before anything is written. -/
theorem handleChangePassword_wrong_old_password {σ : Type} (sys : Sys σ)
    (tty : List (Option Str)) (user oldPass newPass storedHash : Str) (w : World σ)
    (hvalid : isValidEmail user = true) (hexists : userExistsOnFile user w.passwd = true)
    (hold : oldPass ≠ []) (hhash : getUserHashOnFile user w.passwd = .ok storedHash)
    (hwrong : verifyPassword sys storedHash oldPass = false) :
    handleChangePassword sys tty user oldPass newPass w = (.failed .wrongCurrentPassword, w) := by
  unfold handleChangePassword
  simp [hvalid, hexists, hold, hhash, hwrong]

/-- Two password entries that differ stop `handleCreate` before anything is written. -/
theorem handleCreate_passwords_differ {σ : Type} (sys : Sys σ) (VmailBaseDir : Str)
    (user pass confirmPass : Str) (rest : List (Option Str)) (w : World σ)
    (hvalid : isValidEmail user = true) (hnew : userExistsOnFile user w.passwd = false)
    (hdiff : pass ≠ confirmPass) :
    handleCreate sys VmailBaseDir (some pass :: some confirmPass :: rest) user [] w =
      (.failed .passwordsDoNotMatch, w) := by
  unfold handleCreate
  simp [hvalid, hnew, enterNewPassword, readPassword, hdiff]

/-- C7: a run of `handleCreate`, `handleDelete` or `handleChangePassword` that stops on a
validation error ends with exit code 1 and leaves the credential file and the rest of the
system, mailbox directories included, exactly as they were. -/
theorem validation_error_no_mutation {σ : Type} (sys : Sys σ) (VmailBaseDir : Str)
    (tty : List (Option Str)) (answer user password oldPass newPass : Str) (skipConfirm : Bool)
    (w : World σ) :
    ((handleCreate sys VmailBaseDir tty user password w).1.isValidationError = true →
      (handleCreate sys VmailBaseDir tty user password w).1.exitCode = 1 ∧
      (handleCreate sys VmailBaseDir tty user password w).2 = w) ∧
    ((handleDelete sys VmailBaseDir answer user skipConfirm w).1.isValidationError = true →
      (handleDelete sys VmailBaseDir answer user skipConfirm w).1.exitCode = 1 ∧
      (handleDelete sys VmailBaseDir answer user skipConfirm w).2 = w) ∧
    ((handleChangePassword sys tty user oldPass newPass w).1.isValidationError = true →
      (handleChangePassword sys tty user oldPass newPass w).1.exitCode = 1 ∧
      (handleChangePassword sys tty user oldPass newPass w).2 = w) := by
  refine ⟨?_, ?_, ?_⟩
  · unfold handleCreate
    repeat' split
    all_goals simp [Outcome.isValidationError, Failure.isValidationError, Outcome.exitCode]
  · unfold handleDelete
    dsimp only
    cases removeUserFromPasswdOnFile user w.passwd <;> split_ifs <;>
      simp [Outcome.isValidationError, Failure.isValidationError, Outcome.exitCode]
  · unfold handleChangePassword
    repeat' split
    all_goals simp [Outcome.isValidationError, Failure.isValidationError, Outcome.exitCode]

/-- Witness for C7: in a store that holds `alice@example.com`, a second `create` of that
identifier, a `delete` of an absent identifier and a `change-password` with a wrong old
password each end with exit code 1 and change nothing. -/
theorem validation_error_no_mutation_witness :
    ((handleCreate demoSys "/var/vmail".toList [] "alice@example.com".toList "pw".toList
        ⟨some "alice@example.com:PLAIN:old\n".toList, []⟩).1.exitCode = 1 ∧
      (handleCreate demoSys "/var/vmail".toList [] "alice@example.com".toList "pw".toList
        ⟨some "alice@example.com:PLAIN:old\n".toList, []⟩).2 =
        ⟨some "alice@example.com:PLAIN:old\n".toList, []⟩) ∧
    ((handleDelete demoSys "/var/vmail".toList "yes\n".toList "bob@example.com".toList false
        ⟨some "alice@example.com:PLAIN:old\n".toList, []⟩).1.exitCode = 1 ∧
      (handleDelete demoSys "/var/vmail".toList "yes\n".toList "bob@example.com".toList false
        ⟨some "alice@example.com:PLAIN:old\n".toList, []⟩).2 =
        ⟨some "alice@example.com:PLAIN:old\n".toList, []⟩) ∧
    ((handleChangePassword demoSys [] "alice@example.com".toList "bad".toList "new".toList
        ⟨some "alice@example.com:PLAIN:old\n".toList, []⟩).1.exitCode = 1 ∧
      (handleChangePassword demoSys [] "alice@example.com".toList "bad".toList "new".toList
        ⟨some "alice@example.com:PLAIN:old\n".toList, []⟩).2 =
        ⟨some "alice@example.com:PLAIN:old\n".toList, []⟩) :=
  have key := validation_error_no_mutation demoSys "/var/vmail".toList [] "yes\n".toList
    "alice@example.com".toList "pw".toList "bad".toList "new".toList false
    ⟨some "alice@example.com:PLAIN:old\n".toList, []⟩
  have key2 := validation_error_no_mutation demoSys "/var/vmail".toList [] "yes\n".toList
    "bob@example.com".toList "pw".toList "bad".toList "new".toList false
    ⟨some "alice@example.com:PLAIN:old\n".toList, []⟩
  ⟨key.1 (by decide), key2.2.1 (by decide), key.2.2 (by decide)⟩

/-! ### Create, delete, create -/

theorem filter_eq_self_of_none (user : Str) (recs : List Str)
    (h : ∀ l ∈ recs, stringsHasPrefix l (user ++ [':']) = false) :
    recs.filter (fun line => !stringsHasPrefix line (user ++ [':'])) = recs := by
  rw [List.filter_eq_self]
  intro l hl
  rw [h l hl]
  rfl

theorem filter_eq_nil_of_none (user : Str) (recs : List Str)
    (h : ∀ l ∈ recs, stringsHasPrefix l (user ++ [':']) = false) :
    recs.filter (fun line => stringsHasPrefix line (user ++ [':'])) = [] := by
  rw [List.filter_eq_nil_iff]
  intro l hl
  rw [h l hl]
  decide

/-- Removing the record that was just appended gives the original content back. -/
theorem removeUserFromPasswd_addUserToPasswd (c id h : Str) (hdoc : NewlineTerminated c)
    (hnone : ∀ l ∈ fileLines c, stringsHasPrefix l (id ++ [':']) = false)
    (hid : '\n' ∉ id) (hn : '\n' ∉ h) :
    removeUserFromPasswd id (addUserToPasswd id h c) = c := by
  obtain ⟨recs, h1, h2⟩ := fileLines_addUserToPasswd c id h hdoc hid hn
  have hrecs : ∀ l ∈ recs, stringsHasPrefix l (id ++ [':']) = false := fun l hl =>
    hnone l (by rw [h1]; exact List.mem_append_left _ hl)
  have hrec : stringsHasPrefix (id ++ [':'] ++ h) (id ++ [':']) = true :=
    (stringsHasPrefix_iff _ _).2 (List.prefix_append _ _)
  rw [removeUserFromPasswd, ← fileLines, h2, List.filter_append,
    filter_eq_self_of_none id recs hrecs, List.filter_cons, List.filter_cons, hrec,
    stringsHasPrefix_nil]
  simp only [Bool.not_true, Bool.false_eq_true, if_false, Bool.not_false, if_true,
    List.filter_nil]
  rw [← h1]
  exact stringsJoin_stringsSplit '\n' c

/-- C8: create, delete and create again with the same identifier leave exactly one line
starting with `id:`, the line `id:h2`; the other lines of the result are the lines of the
original content, unchanged and in their original order. -/
theorem create_delete_create (c id h1 h2 : Str) (hdoc : NewlineTerminated c)
    (hnone : ∀ l ∈ fileLines c, stringsHasPrefix l (id ++ [':']) = false)
    (hid : isValidEmail id = true) (hn1 : '\n' ∉ h1) (hn2 : '\n' ∉ h2) :
    recordsOf id
        (addUserToPasswd id h2 (removeUserFromPasswd id (addUserToPasswd id h1 c))) =
      [id ++ [':'] ++ h2] ∧
    (fileLines
        (addUserToPasswd id h2 (removeUserFromPasswd id (addUserToPasswd id h1 c)))).filter
      (fun line => !stringsHasPrefix line (id ++ [':'])) = fileLines c ∧
    (fileLines c).Sublist
      (fileLines
        (addUserToPasswd id h2 (removeUserFromPasswd id (addUserToPasswd id h1 c)))) := by
  have hnl := newline_not_mem_of_valid id hid
  rw [removeUserFromPasswd_addUserToPasswd c id h1 hdoc hnone hnl hn1]
  obtain ⟨recs, e1, e2⟩ := fileLines_addUserToPasswd c id h2 hdoc hnl hn2
  have hrecs : ∀ l ∈ recs, stringsHasPrefix l (id ++ [':']) = false := fun l hl =>
    hnone l (by rw [e1]; exact List.mem_append_left _ hl)
  have hrec : stringsHasPrefix (id ++ [':'] ++ h2) (id ++ [':']) = true :=
    (stringsHasPrefix_iff _ _).2 (List.prefix_append _ _)
  refine ⟨?_, ?_, ?_⟩
  · rw [recordsOf, e2, List.filter_append, filter_eq_nil_of_none id recs hrecs,
      List.filter_cons, List.filter_cons, hrec, stringsHasPrefix_nil]
    rfl
  · rw [e2, e1, List.filter_append, filter_eq_self_of_none id recs hrecs, List.filter_cons,
      List.filter_cons, hrec, stringsHasPrefix_nil]
    rfl
  · rw [e2, e1]
    exact (List.Sublist.refl recs).append (List.sublist_cons_self _ _)

/-- Witness for C8: `bob@example.com` is created, deleted and created again in a store that
holds `alice@example.com`. -/
theorem create_delete_create_witness :
    recordsOf "bob@example.com".toList
        (addUserToPasswd "bob@example.com".toList "H2".toList
          (removeUserFromPasswd "bob@example.com".toList
            (addUserToPasswd "bob@example.com".toList "H1".toList
              "alice@example.com:H0\n".toList))) =
      ["bob@example.com".toList ++ [':'] ++ "H2".toList] ∧
    (fileLines
        (addUserToPasswd "bob@example.com".toList "H2".toList
          (removeUserFromPasswd "bob@example.com".toList
            (addUserToPasswd "bob@example.com".toList "H1".toList
              "alice@example.com:H0\n".toList)))).filter
      (fun line => !stringsHasPrefix line ("bob@example.com".toList ++ [':'])) =
        fileLines "alice@example.com:H0\n".toList ∧
    (fileLines "alice@example.com:H0\n".toList).Sublist
      (fileLines
        (addUserToPasswd "bob@example.com".toList "H2".toList
          (removeUserFromPasswd "bob@example.com".toList
            (addUserToPasswd "bob@example.com".toList "H1".toList
              "alice@example.com:H0\n".toList)))) :=
  create_delete_create "alice@example.com:H0\n".toList "bob@example.com".toList "H1".toList
    "H2".toList (by decide) (by decide) (by decide) (by decide) (by decide)

/-! ### Mailbox paths -/

/-- What does hold for the mailbox path of a valid identifier: splitting at `@` gives exactly
the local part and the domain, both are non-empty and without `/`, and the domain is neither
`.` nor `..`. The local part can be `.` or `..`. -/
theorem stringsSplit_at_of_valid (id : Str) (hid : isValidEmail id = true) :
    ∃ loc domain : Str, stringsSplit '@' id = [loc, domain] ∧
      loc ≠ [] ∧ domain ≠ [] ∧ '/' ∉ loc ∧ '/' ∉ domain ∧
      domain ≠ ['.'] ∧ domain ≠ ['.', '.'] := by
  obtain ⟨loc, domain, tld, rfl, hl1, hl2, hd1, hd2, ht1, ht2⟩ := (isValidEmail_iff_shape id).1 hid
  have hdom : ∀ c ∈ domain ++ '.' :: tld, isDomainChar c = true := by
    intro c hc
    simp only [List.mem_append, List.mem_cons] at hc
    rcases hc with hc | rfl | hc
    · exact hd2 c hc
    · decide
    · have := ht2 c hc
      simp only [isDomainChar, Char.isAlphanum, Bool.or_eq_true]
      exact Or.inl (Or.inl (Or.inl this))
  have hat1 : '@' ∉ loc := fun h => absurd (hl2 _ h) (by decide)
  have hat2 : '@' ∉ domain ++ '.' :: tld := fun h => absurd (hdom _ h) (by decide)
  refine ⟨loc, domain ++ '.' :: tld, ?_, hl1, by simp, fun h => absurd (hl2 _ h) (by decide),
    fun h => absurd (hdom _ h) (by decide), ?_, ?_⟩
  · rw [stringsSplit_append_sep, stringsSplit_no_sep _ _ hat1, stringsSplit_no_sep _ _ hat2]
    rfl
  · intro h
    have := congrArg List.length h
    simp only [List.length_append, List.length_cons, List.length_nil] at this
    omega
  · intro h
    have := congrArg List.length h
    simp only [List.length_append, List.length_cons, List.length_nil] at this
    have : domain.length ≠ 0 := fun e => hd1 (List.length_eq_zero.1 e)
    omega

/-- C9 fails on the code: `..@example.com` and `.@example.com` are valid identifiers, and for
them the directory of the user is `VmailBaseDir` itself and the directory of the whole domain;
`deleteMaildir` removes `VmailBaseDir` recursively. -/
theorem deleteMaildir_dotdot {σ : Type} (sys : Sys σ) (s : σ) :
    isValidEmail "..@example.com".toList = true ∧
    isValidEmail ".@example.com".toList = true ∧
    stringsSplit '@' "..@example.com".toList = ["..".toList, "example.com".toList] ∧
    userDir "/var/vmail".toList "..@example.com".toList = some "/var/vmail".toList ∧
    userDir "/var/vmail".toList ".@example.com".toList = some "/var/vmail/example.com".toList ∧
    deleteMaildir sys "/var/vmail".toList "..@example.com".toList s =
      if sys.notExist "/var/vmail".toList s then (true, s)
      else sys.removeAll "/var/vmail".toList s := by
  refine ⟨by decide, by decide, by decide, by decide, by decide, ?_⟩
  have h1 : stringsSplit '@' "..@example.com".toList = ["..".toList, "example.com".toList] := by
    decide
  have h2 : filepathJoin ["/var/vmail".toList, "example.com".toList, "..".toList] =
      "/var/vmail".toList := by decide
  unfold deleteMaildir
  rw [h1]
  simp only [h2]

/-! ### Deleting one account leaves the others untouched -/

theorem find?_filter_other (e user : Str) (he : isValidEmail e = true)
    (hu : isValidEmail user = true) (hne : e ≠ user) (ls : List Str) :
    (ls.filter fun line => !stringsHasPrefix line (user ++ [':'])).find?
        (fun line => stringsHasPrefix line (e ++ [':'])) =
      ls.find? fun line => stringsHasPrefix line (e ++ [':']) := by
  induction ls with
  | nil => rfl
  | cons l ls ih =>
    rw [List.filter_cons, List.find?_cons]
    cases hp : stringsHasPrefix l (user ++ [':'])
    · simp only [Bool.not_false, if_true]
      rw [List.find?_cons, ih]
    · simp only [Bool.not_true, Bool.false_eq_true, if_false]
      rw [stringsHasPrefix_other e user l he hu hne hp]
      exact ih

theorem find?_fileLines_removeUserFromPasswd (e user c : Str) (he : isValidEmail e = true)
    (hu : isValidEmail user = true) (hne : e ≠ user) :
    (fileLines (removeUserFromPasswd user c)).find?
        (fun line => stringsHasPrefix line (e ++ [':'])) =
      (fileLines c).find? fun line => stringsHasPrefix line (e ++ [':']) := by
  rw [fileLines_removeUserFromPasswd]
  split
  · rename_i hnil
    rw [← find?_filter_other e user he hu hne (fileLines c), hnil, List.find?_cons,
      stringsHasPrefix_nil]
  · exact find?_filter_other e user he hu hne (fileLines c)

theorem linesFit_removeUserFromPasswd (user c : Str) (h : LinesFit c) :
    LinesFit (removeUserFromPasswd user c) := by
  intro l hl
  rw [fileLines_removeUserFromPasswd] at hl
  split at hl
  · rw [List.mem_singleton] at hl
    subst hl
    decide
  · exact h l (List.mem_of_mem_filter hl)

/-- C10 as stated fails in two places. A content without a final newline whose lines all
start with `id:` is rewritten to the empty content, which has one (empty) line and not none.
And when the record of `id` does not fit in the buffer of the scanner, an account behind it
is not seen before the removal and is seen after it. -/
theorem removeUserFromPasswd_frame_fails :
    fileLines (removeUserFromPasswd "a@b.cc".toList "a@b.cc:H".toList) ≠
      (fileLines "a@b.cc:H".toList).filter
        (fun line => !stringsHasPrefix line ("a@b.cc".toList ++ [':'])) ∧
    isValidEmail "a@b.cc".toList = true ∧ isValidEmail "c@d.ee".toList = true ∧
    "c@d.ee".toList ≠ "a@b.cc".toList ∧
    userExists "c@d.ee".toList
      ("a@b.cc:".toList ++ longLine ++ '\n' :: "c@d.ee:H\n".toList) = false ∧
    userExists "c@d.ee".toList
      (removeUserFromPasswd "a@b.cc".toList
        ("a@b.cc:".toList ++ longLine ++ '\n' :: "c@d.ee:H\n".toList)) = true := by
  have hnl : '\n' ∉ "a@b.cc:".toList ++ longLine := by
    intro h
    rcases List.mem_append.1 h with h | h
    · exact absurd h (by decide)
    · exact newline_not_mem_longLine h
  have hlen : MaxScanTokenSize ≤ utf8Len ("a@b.cc:".toList ++ longLine) := by
    rw [utf8Len_append]
    exact Nat.le_trans utf8Len_longLine (Nat.le_add_left _ _)
  refine ⟨by decide, by decide, by decide, by decide, ?_, ?_⟩
  · unfold userExists
    rw [scanLines_of_long _ _ hnl hlen]
    rfl
  · have hrm : removeUserFromPasswd "a@b.cc".toList
        ("a@b.cc:".toList ++ longLine ++ '\n' :: "c@d.ee:H\n".toList) = "c@d.ee:H\n".toList := by
      have hp : stringsHasPrefix ("a@b.cc:".toList ++ longLine) ("a@b.cc".toList ++ [':']) =
          true := (stringsHasPrefix_iff _ _).2 (List.prefix_append _ _)
      rw [removeUserFromPasswd, ← fileLines, fileLines_line_cons _ _ hnl, List.filter_cons, hp]
      decide
    rw [hrm]
    decide

/-- C10, amended: when at least one line of the content does not start with `id:` (as in every
content in the documented format), the lines written by `removeUserFromPasswd` are exactly
the lines of the content that do not start with `id:`, in their original order. And when every
line of the content is shorter than `MaxScanTokenSize` bytes, `userExists` and `getUserHash`
give the same result before and after the removal for every other valid identifier. -/
theorem removeUserFromPasswd_frame (c id : Str) :
    ((∃ l ∈ fileLines c, stringsHasPrefix l (id ++ [':']) = false) →
      fileLines (removeUserFromPasswd id c) =
        (fileLines c).filter fun line => !stringsHasPrefix line (id ++ [':'])) ∧
    (∀ id2 : Str, isValidEmail id = true → isValidEmail id2 = true → id2 ≠ id → LinesFit c →
      userExists id2 (removeUserFromPasswd id c) = userExists id2 c ∧
      getUserHash id2 (removeUserFromPasswd id c) = getUserHash id2 c) := by
  constructor
  · rintro ⟨l, hl, hp⟩
    rw [fileLines_removeUserFromPasswd]
    split
    · rename_i hnil
      rw [List.filter_eq_nil_iff] at hnil
      have := hnil l hl
      rw [hp] at this
      exact absurd this (by decide)
    · rfl
  · intro id2 hid hid2 hne hfit
    have hfit2 := linesFit_removeUserFromPasswd id c hfit
    have hcolon := colon_not_mem_of_valid id2 hid2
    rw [userExists_eq_find? id2 _ hfit2, userExists_eq_find? id2 c hfit,
      getUserHash_eq_find? id2 _ hcolon hfit2, getUserHash_eq_find? id2 c hcolon hfit,
      find?_fileLines_removeUserFromPasswd id2 id c hid2 hid hne]
    exact ⟨rfl, rfl⟩

/-- Witness for C10: `bob@example.com` is removed from a store of three records and
`carol@example.com` is looked up. -/
theorem removeUserFromPasswd_frame_witness :
    fileLines (removeUserFromPasswd "bob@example.com".toList
        "alice@example.com:H1\nbob@example.com:H2\ncarol@example.com:H3\n".toList) =
      (fileLines "alice@example.com:H1\nbob@example.com:H2\ncarol@example.com:H3\n".toList).filter
        (fun line => !stringsHasPrefix line ("bob@example.com".toList ++ [':'])) ∧
    userExists "carol@example.com".toList
      (removeUserFromPasswd "bob@example.com".toList
        "alice@example.com:H1\nbob@example.com:H2\ncarol@example.com:H3\n".toList) =
      userExists "carol@example.com".toList
        "alice@example.com:H1\nbob@example.com:H2\ncarol@example.com:H3\n".toList ∧
    getUserHash "carol@example.com".toList
      (removeUserFromPasswd "bob@example.com".toList
        "alice@example.com:H1\nbob@example.com:H2\ncarol@example.com:H3\n".toList) =
      getUserHash "carol@example.com".toList
        "alice@example.com:H1\nbob@example.com:H2\ncarol@example.com:H3\n".toList :=
  have key := removeUserFromPasswd_frame
    "alice@example.com:H1\nbob@example.com:H2\ncarol@example.com:H3\n".toList
    "bob@example.com".toList
  ⟨key.1 ⟨"alice@example.com:H1".toList, by decide, by decide⟩,
    key.2 "carol@example.com".toList (by decide) (by decide) (by decide) (by decide)⟩

end MailMgmt
